import Mathlib

/-!
# Verification of the mtlsyn controller synthesizer

Shallow embedding of the mtlsyn sources (MTL→ATA translator, search-tree
labeling, controller extraction, CLI launcher) together with proofs of the
specification claims.  Pure functions of the C++ sources are translated to
Lean functions; `std::set` iteration becomes sorted-list iteration or
`Finset` operations, exceptions become `Except`.
-/

namespace Mtlsyn

/-! ## Time intervals and clock constraints

From `utilities/Interval.h` / `automata.h` (modelled following the spec where
the header is not among the sources): a time point is a non-negative
rational, an interval endpoint is tagged WEAK, STRICT or INFTY.
-/

/-- Bound type of an interval endpoint (`utilities::arithmetic::BoundType`). -/
inductive BoundT where
  | weak
  | strict
  | infty
deriving DecidableEq, Repr

/-- A time interval with a lower and an upper endpoint, each carrying a bound
type (`logic::TimeInterval`). -/
structure TimeInterval where
  lower : ℚ
  lowerBoundType : BoundT
  upper : ℚ
  upperBoundType : BoundT
deriving DecidableEq, Repr

/-- Comparison operator of an atomic clock constraint
(`automata::AtomicClockConstraintT` instantiated with std comparators). -/
inductive CompOp where
  | lt
  | le
  | eq
  | ne
  | ge
  | gt
deriving DecidableEq, Repr

/-- An atomic clock constraint `x op c` over a single clock. -/
structure ClockConstraint where
  op : CompOp
  c : ℚ
deriving DecidableEq, Repr

/-! ## MTL formulas

From `mtl/MTLFormula.h` (file not among the sources; the operator set is
fixed by the `switch` over `LOP` in `translator.cpp` and by the spec's data
model: TRUE, FALSE, AP, conjunction, disjunction, negation, until,
dual-until; finally/globally are sugar for until/dual-until and do not occur
as constructors).  Atomic propositions are strings (`ActionType`).
-/

/-- MTL formula AST (`logic::MTLFormula<std::string>`). -/
inductive MTLF where
  | tt : MTLF
  | ff : MTLF
  | ap (a : String) : MTLF
  | lneg (f : MTLF) : MTLF
  | land (f g : MTLF) : MTLF
  | lor (f g : MTLF) : MTLF
  | luntil (f g : MTLF) (i : TimeInterval) : MTLF
  | lduntil (f g : MTLF) (i : TimeInterval) : MTLF
deriving DecidableEq, Repr

namespace MTLF

/-- Modelled from the spec: `to_positive_normal_form` pushes negations down
to atomic propositions (De Morgan; until/dual-until are dual).
`MTLFormula.hpp` is not among the sources. -/
def pnf : MTLF → MTLF
  | tt => tt
  | ff => ff
  | ap a => ap a
  | lneg f => npnf f
  | land f g => land (pnf f) (pnf g)
  | lor f g => lor (pnf f) (pnf g)
  | luntil f g i => luntil (pnf f) (pnf g) i
  | lduntil f g i => lduntil (pnf f) (pnf g) i
where
  /-- Positive normal form of the negation of a formula. -/
  npnf : MTLF → MTLF
  | tt => ff
  | ff => tt
  | ap a => lneg (ap a)
  | lneg f => pnf f
  | land f g => lor (npnf f) (npnf g)
  | lor f g => land (npnf f) (npnf g)
  | luntil f g i => lduntil (npnf f) (npnf g) i
  | lduntil f g i => luntil (npnf f) (npnf g) i

/-- Modelled from the spec: `get_alphabet` returns the atomic propositions
occurring in the formula. -/
def getAlphabet : MTLF → Finset String
  | tt => ∅
  | ff => ∅
  | ap a => {a}
  | lneg f => getAlphabet f
  | land f g => getAlphabet f ∪ getAlphabet g
  | lor f g => getAlphabet f ∪ getAlphabet g
  | luntil f g _ => getAlphabet f ∪ getAlphabet g
  | lduntil f g _ => getAlphabet f ∪ getAlphabet g

/-- Modelled from the spec: `get_subformulas_of_type(LUNTIL)` collects all
until-rooted subformulas (including nested ones), as a list in traversal
order with duplicates removed. -/
def untilSubformulas : MTLF → List MTLF
  | tt => []
  | ff => []
  | ap _ => []
  | lneg f => untilSubformulas f
  | land f g => (untilSubformulas f ++ untilSubformulas g).dedup
  | lor f g => (untilSubformulas f ++ untilSubformulas g).dedup
  | luntil f g i =>
      (luntil f g i :: (untilSubformulas f ++ untilSubformulas g)).dedup
  | lduntil f g _ => (untilSubformulas f ++ untilSubformulas g).dedup

/-- Modelled from the spec: `get_subformulas_of_type(LDUNTIL)` collects all
dual-until-rooted subformulas. -/
def dualUntilSubformulas : MTLF → List MTLF
  | tt => []
  | ff => []
  | ap _ => []
  | lneg f => dualUntilSubformulas f
  | land f g => (dualUntilSubformulas f ++ dualUntilSubformulas g).dedup
  | lor f g => (dualUntilSubformulas f ++ dualUntilSubformulas g).dedup
  | luntil f g _ => (dualUntilSubformulas f ++ dualUntilSubformulas g).dedup
  | lduntil f g i =>
      (lduntil f g i :: (dualUntilSubformulas f ++ dualUntilSubformulas g)).dedup

/-- A formula is in positive normal form when negation appears only directly
above atomic propositions (or constants), mirroring the cases accepted by
`init` in `translator.cpp`. -/
def isPNF : MTLF → Bool
  | tt => true
  | ff => true
  | ap _ => true
  | lneg tt => true
  | lneg ff => true
  | lneg (ap _) => true
  | lneg _ => false
  | land f g => isPNF f && isPNF g
  | lor f g => isPNF f && isPNF g
  | luntil f g _ => isPNF f && isPNF g
  | lduntil f g _ => isPNF f && isPNF g

end MTLF

/-! ## ATA formulas and the translated ATA

From `automata/ata_formula.h` and `automata/ata.h` (not among the sources;
the constructor shapes are fixed by their uses in `translator.cpp` and by
the spec's formula grammar `TRUE | FALSE | LOC | CONSTRAINT | RESET | AND |
OR`).  Locations of the translated ATA are MTL formulas.
-/

/-- Positive boolean ATA formula over MTL-formula locations
(`ata::Formula<MTLFormula>` with its concrete subclasses). -/
inductive AtaFormula where
  | tru : AtaFormula
  | fls : AtaFormula
  | loc (l : MTLF) : AtaFormula
  | constraint (c : ClockConstraint) : AtaFormula
  | reset (f : AtaFormula) : AtaFormula
  | conj (f g : AtaFormula) : AtaFormula
  | disj (f g : AtaFormula) : AtaFormula
deriving DecidableEq, Repr

/-- Modelled from the spec: `ata::create_conjunction` builds the conjunction
of two formulas (§4.1 writes the transition formulas with plain ∧). -/
def createConjunction (f g : AtaFormula) : AtaFormula := AtaFormula.conj f g

/-- Modelled from the spec: `ata::create_disjunction` builds the disjunction
of two formulas (§4.1 writes the transition formulas with plain ∨). -/
def createDisjunction (f g : AtaFormula) : AtaFormula := AtaFormula.disj f g

/-- An ATA transition `(source, symbol, formula)`
(`ata::Transition<MTLFormula, AtomicProposition>`). -/
structure AtaTransition where
  source : MTLF
  symbol : String
  formula : AtaFormula
deriving DecidableEq, Repr

/-- The translated alternating timed automaton, mirroring the constructor
arguments used at the end of `translate` in `translator.cpp`:
`(alphabet, initial location, accepting locations, transitions, sink)`. -/
structure ATA where
  alphabet : Finset String
  initial : MTLF
  accepting : List MTLF
  transitions : Finset AtaTransition
deriving DecidableEq

/-- Error raised by the translator: `std::invalid_argument` on an alphabet
collision with `l0`, `std::logic_error` on a non-PNF input to `init`. -/
inductive TransError where
  | invalidArgument (msg : String) : TransError
  | logicError (msg : String) : TransError
deriving DecidableEq, Repr

/-! ### The translator (`translator.cpp`, in the sources) -/

/-- `create_contains`: constraint formula defining the passed interval.
WEAK maps to ≥/≤, STRICT to >/<, INFTY to ⊤ (absent bound). -/
def createContains (duration : TimeInterval) : AtaFormula :=
  let lowerBound : AtaFormula :=
    match duration.lowerBoundType with
    | BoundT.infty => AtaFormula.tru
    | BoundT.weak => AtaFormula.constraint ⟨CompOp.ge, duration.lower⟩
    | BoundT.strict => AtaFormula.constraint ⟨CompOp.gt, duration.lower⟩
  let upperBound : AtaFormula :=
    match duration.upperBoundType with
    | BoundT.infty => AtaFormula.tru
    | BoundT.weak => AtaFormula.constraint ⟨CompOp.le, duration.upper⟩
    | BoundT.strict => AtaFormula.constraint ⟨CompOp.lt, duration.upper⟩
  createConjunction lowerBound upperBound

/-- `create_negated_contains`: constraint formula excluding the passed
interval (flipped comparators, disjunction). -/
def createNegatedContains (duration : TimeInterval) : AtaFormula :=
  let lowerBound : AtaFormula :=
    match duration.lowerBoundType with
    | BoundT.infty => AtaFormula.fls
    | BoundT.weak => AtaFormula.constraint ⟨CompOp.lt, duration.lower⟩
    | BoundT.strict => AtaFormula.constraint ⟨CompOp.le, duration.lower⟩
  let upperBound : AtaFormula :=
    match duration.upperBoundType with
    | BoundT.infty => AtaFormula.fls
    | BoundT.weak => AtaFormula.constraint ⟨CompOp.gt, duration.upper⟩
    | BoundT.strict => AtaFormula.constraint ⟨CompOp.ge, duration.upper⟩
  createDisjunction lowerBound upperBound

/-- `init(ψ, a, first)` from `translator.cpp`.  Throws `std::logic_error`
when a negation is applied to anything but TRUE, FALSE or an atomic
proposition (formula not in positive normal form). -/
def init (formula : MTLF) (a : String) (first : Bool) : Except TransError AtaFormula :=
  match formula with
  | MTLF.tt => Except.ok AtaFormula.tru
  | MTLF.ff => Except.ok AtaFormula.fls
  | MTLF.luntil f g i =>
      if first then Except.ok (AtaFormula.loc (MTLF.luntil f g i))
      else Except.ok (AtaFormula.reset (AtaFormula.loc (MTLF.luntil f g i)))
  | MTLF.lduntil f g i =>
      if first then Except.ok (AtaFormula.loc (MTLF.lduntil f g i))
      else Except.ok (AtaFormula.reset (AtaFormula.loc (MTLF.lduntil f g i)))
  | MTLF.land f g => do
      pure (createConjunction (← init f a first) (← init g a first))
  | MTLF.lor f g => do
      pure (createDisjunction (← init f a first) (← init g a first))
  | MTLF.ap b =>
      if b = a then Except.ok AtaFormula.tru else Except.ok AtaFormula.fls
  | MTLF.lneg f =>
      match f with
      | MTLF.tt => Except.ok AtaFormula.fls
      | MTLF.ff => Except.ok AtaFormula.tru
      | MTLF.ap b =>
          if b = a then Except.ok AtaFormula.fls else Except.ok AtaFormula.tru
      | _ => Except.error (TransError.logicError "not in positive normal form")

/-- The transition for one until subformula and one symbol:
`δ(ψ, a) = (init(φ₂,a) ∧ contains(I)) ∨ (init(φ₁,a) ∧ ψ)`. -/
def untilTransition (symbol : String) (u : MTLF) : Except TransError AtaTransition :=
  match u with
  | MTLF.luntil f g i => do
      let tf := createDisjunction
        (createConjunction (← init g symbol false) (createContains i))
        (createConjunction (← init f symbol false)
          (AtaFormula.loc (MTLF.luntil f g i)))
      pure ⟨MTLF.luntil f g i, symbol, tf⟩
  | _ => Except.error (TransError.logicError "unexpected formula operator")

/-- The transition for one dual-until subformula and one symbol:
`δ(ψ, a) = (init(φ₂,a) ∨ ¬contains(I)) ∧ (init(φ₁,a) ∨ ψ)`. -/
def dualUntilTransition (symbol : String) (u : MTLF) : Except TransError AtaTransition :=
  match u with
  | MTLF.lduntil f g i => do
      let tf := createConjunction
        (createDisjunction (← init g symbol false) (createNegatedContains i))
        (createDisjunction (← init f symbol false)
          (AtaFormula.loc (MTLF.lduntil f g i)))
      pure ⟨MTLF.lduntil f g i, symbol, tf⟩
  | _ => Except.error (TransError.logicError "unexpected formula operator")

/-- Error-propagating map over a list, mirroring the C++ `for` loops that
construct transitions and stop at the first thrown exception. -/
def mapE {A B : Type} (f : A → Except TransError B) :
    List A → Except TransError (List B)
  | [] => Except.ok []
  | a :: l => do pure ((← f a) :: (← mapE f l))

/-- The transitions created for a single alphabet symbol: the initial
transition `δ(ℓ₀, a) = init(φ', a, true)`, then one transition per until and
per dual-until subformula. -/
def transitionsForSymbol (formula : MTLF) (untils duals : List MTLF)
    (symbol : String) : Except TransError (List AtaTransition) := do
  let t0 : AtaTransition := ⟨MTLF.ap "l0", symbol, ← init formula symbol true⟩
  let tu ← mapE (untilTransition symbol) untils
  let td ← mapE (dualUntilTransition symbol) duals
  pure (t0 :: (tu ++ td))

/-- `translate(input_formula, alphabet)` from `translator.cpp`: normalize to
positive normal form, default the alphabet to the formula's alphabet,
reject `l0`, and construct the ATA.  The sink location is the atomic
proposition `sink` (recorded via the `accepting` list; the C++ constructor
also receives it as the fifth argument, which we fold into the structure by
convention: locations are implicit in C++ as well). -/
def translate (inputFormula : MTLF) (alphabet : Finset String) :
    Except TransError ATA := do
  let formula := inputFormula.pnf
  let alph := if alphabet = ∅ then formula.getAlphabet else alphabet
  if "l0" ∈ alph then
    throw (TransError.invalidArgument
      "The formula alphabet must not contain the symbol l0")
  let untils := formula.untilSubformulas
  let duals := formula.dualUntilSubformulas
  let transitionLists ← mapE (transitionsForSymbol formula untils duals)
    (alph.sort (· ≤ ·))
  pure { alphabet := alph
         initial := MTLF.ap "l0"
         accepting := duals
         transitions := transitionLists.flatten.toFinset }

end Mtlsyn

namespace Mtlsyn

/-! ## Lemmas about positive normal form and the translator -/

theorem except_ok_bind {E A B : Type} (a : A) (f : A → Except E B) :
    (Except.ok a : Except E A) >>= f = f a := rfl

theorem pnf_idem_pair (f : MTLF) :
    MTLF.pnf (MTLF.pnf f) = MTLF.pnf f ∧
    MTLF.pnf (MTLF.pnf.npnf f) = MTLF.pnf.npnf f := by
  induction f with
  | tt => simp [MTLF.pnf, MTLF.pnf.npnf]
  | ff => simp [MTLF.pnf, MTLF.pnf.npnf]
  | ap a => simp [MTLF.pnf, MTLF.pnf.npnf]
  | lneg f ih => simpa [MTLF.pnf, MTLF.pnf.npnf] using ⟨ih.2, ih.1⟩
  | land f g ihf ihg =>
      simp [MTLF.pnf, MTLF.pnf.npnf, ihf.1, ihf.2, ihg.1, ihg.2]
  | lor f g ihf ihg =>
      simp [MTLF.pnf, MTLF.pnf.npnf, ihf.1, ihf.2, ihg.1, ihg.2]
  | luntil f g i ihf ihg =>
      simp [MTLF.pnf, MTLF.pnf.npnf, ihf.1, ihf.2, ihg.1, ihg.2]
  | lduntil f g i ihf ihg =>
      simp [MTLF.pnf, MTLF.pnf.npnf, ihf.1, ihf.2, ihg.1, ihg.2]

/-- Converting to positive normal form is idempotent. -/
theorem pnf_idem (f : MTLF) : MTLF.pnf (MTLF.pnf f) = MTLF.pnf f :=
  (pnf_idem_pair f).1

theorem pnf_isPNF_pair (f : MTLF) :
    (MTLF.pnf f).isPNF = true ∧ (MTLF.pnf.npnf f).isPNF = true := by
  induction f with
  | tt => simp [MTLF.pnf, MTLF.pnf.npnf, MTLF.isPNF]
  | ff => simp [MTLF.pnf, MTLF.pnf.npnf, MTLF.isPNF]
  | ap a => simp [MTLF.pnf, MTLF.pnf.npnf, MTLF.isPNF]
  | lneg f ih => simpa [MTLF.pnf, MTLF.pnf.npnf, MTLF.isPNF] using ⟨ih.2, ih.1⟩
  | land f g ihf ihg =>
      simp [MTLF.pnf, MTLF.pnf.npnf, MTLF.isPNF, ihf.1, ihf.2, ihg.1, ihg.2]
  | lor f g ihf ihg =>
      simp [MTLF.pnf, MTLF.pnf.npnf, MTLF.isPNF, ihf.1, ihf.2, ihg.1, ihg.2]
  | luntil f g i ihf ihg =>
      simp [MTLF.pnf, MTLF.pnf.npnf, MTLF.isPNF, ihf.1, ihf.2, ihg.1, ihg.2]
  | lduntil f g i ihf ihg =>
      simp [MTLF.pnf, MTLF.pnf.npnf, MTLF.isPNF, ihf.1, ihf.2, ihg.1, ihg.2]

/-- The positive normal form of a formula is in positive normal form. -/
theorem pnf_isPNF (f : MTLF) : (MTLF.pnf f).isPNF = true :=
  (pnf_isPNF_pair f).1

theorem pnf_getAlphabet_pair (f : MTLF) :
    (MTLF.pnf f).getAlphabet = f.getAlphabet ∧
    (MTLF.pnf.npnf f).getAlphabet = f.getAlphabet := by
  induction f with
  | tt => simp [MTLF.pnf, MTLF.pnf.npnf, MTLF.getAlphabet]
  | ff => simp [MTLF.pnf, MTLF.pnf.npnf, MTLF.getAlphabet]
  | ap a => simp [MTLF.pnf, MTLF.pnf.npnf, MTLF.getAlphabet]
  | lneg f ih =>
      simpa [MTLF.pnf, MTLF.pnf.npnf, MTLF.getAlphabet] using ⟨ih.2, ih.1⟩
  | land f g ihf ihg =>
      simp [MTLF.pnf, MTLF.pnf.npnf, MTLF.getAlphabet, ihf.1, ihf.2, ihg.1, ihg.2]
  | lor f g ihf ihg =>
      simp [MTLF.pnf, MTLF.pnf.npnf, MTLF.getAlphabet, ihf.1, ihf.2, ihg.1, ihg.2]
  | luntil f g i ihf ihg =>
      simp [MTLF.pnf, MTLF.pnf.npnf, MTLF.getAlphabet, ihf.1, ihf.2, ihg.1, ihg.2]
  | lduntil f g i ihf ihg =>
      simp [MTLF.pnf, MTLF.pnf.npnf, MTLF.getAlphabet, ihf.1, ihf.2, ihg.1, ihg.2]

/-- Positive normal form does not change the set of atomic propositions. -/
theorem pnf_getAlphabet (f : MTLF) :
    (MTLF.pnf f).getAlphabet = f.getAlphabet :=
  (pnf_getAlphabet_pair f).1

/-- `init` succeeds on formulas in positive normal form. -/
theorem init_ok_of_isPNF (f : MTLF) (a : String) (first : Bool)
    (h : f.isPNF = true) : ∃ g, init f a first = Except.ok g := by
  induction f with
  | tt => exact ⟨_, rfl⟩
  | ff => exact ⟨_, rfl⟩
  | ap b =>
      by_cases hb : b = a
      all_goals simp [init, hb]
  | lneg f ih =>
      cases f with
      | tt => exact ⟨_, rfl⟩
      | ff => exact ⟨_, rfl⟩
      | ap b =>
          by_cases hb : b = a
          all_goals simp [init, hb]
      | lneg g => simp [MTLF.isPNF] at h
      | land g g2 => simp [MTLF.isPNF] at h
      | lor g g2 => simp [MTLF.isPNF] at h
      | luntil g g2 i => simp [MTLF.isPNF] at h
      | lduntil g g2 i => simp [MTLF.isPNF] at h
  | land f g ihf ihg =>
      simp only [MTLF.isPNF, Bool.and_eq_true] at h
      obtain ⟨gf, hf⟩ := ihf h.1
      obtain ⟨gg, hg⟩ := ihg h.2
      refine ⟨createConjunction gf gg, ?_⟩
      simp [init, hf, hg, except_ok_bind]
  | lor f g ihf ihg =>
      simp only [MTLF.isPNF, Bool.and_eq_true] at h
      obtain ⟨gf, hf⟩ := ihf h.1
      obtain ⟨gg, hg⟩ := ihg h.2
      refine ⟨createDisjunction gf gg, ?_⟩
      simp [init, hf, hg, except_ok_bind]
  | luntil f g i ihf ihg =>
      cases first
      all_goals simp [init]
  | lduntil f g i ihf ihg =>
      cases first
      all_goals simp [init]

end Mtlsyn

namespace Mtlsyn

/-- Every element of `untilSubformulas` of a PNF formula is an until formula
with PNF operands. -/
theorem mem_untilSubformulas (f u : MTLF) (hf : f.isPNF = true)
    (hu : u ∈ f.untilSubformulas) :
    ∃ a b i, u = MTLF.luntil a b i ∧ a.isPNF = true ∧ b.isPNF = true := by
  induction f with
  | tt => simp [MTLF.untilSubformulas] at hu
  | ff => simp [MTLF.untilSubformulas] at hu
  | ap a => simp [MTLF.untilSubformulas] at hu
  | lneg f ih =>
      cases f with
      | tt => simp [MTLF.untilSubformulas] at hu
      | ff => simp [MTLF.untilSubformulas] at hu
      | ap a => simp [MTLF.untilSubformulas] at hu
      | lneg g => simp [MTLF.isPNF] at hf
      | land g g2 => simp [MTLF.isPNF] at hf
      | lor g g2 => simp [MTLF.isPNF] at hf
      | luntil g g2 i => simp [MTLF.isPNF] at hf
      | lduntil g g2 i => simp [MTLF.isPNF] at hf
  | land f g ihf ihg =>
      simp only [MTLF.isPNF, Bool.and_eq_true] at hf
      simp only [MTLF.untilSubformulas, List.mem_dedup, List.mem_append] at hu
      rcases hu with hu | hu
      · exact ihf hf.1 hu
      · exact ihg hf.2 hu
  | lor f g ihf ihg =>
      simp only [MTLF.isPNF, Bool.and_eq_true] at hf
      simp only [MTLF.untilSubformulas, List.mem_dedup, List.mem_append] at hu
      rcases hu with hu | hu
      · exact ihf hf.1 hu
      · exact ihg hf.2 hu
  | luntil f g i ihf ihg =>
      simp only [MTLF.isPNF, Bool.and_eq_true] at hf
      simp only [MTLF.untilSubformulas, List.mem_dedup, List.mem_cons,
        List.mem_append] at hu
      rcases hu with hu | hu | hu
      · exact ⟨f, g, i, hu, hf.1, hf.2⟩
      · exact ihf hf.1 hu
      · exact ihg hf.2 hu
  | lduntil f g i ihf ihg =>
      simp only [MTLF.isPNF, Bool.and_eq_true] at hf
      simp only [MTLF.untilSubformulas, List.mem_dedup, List.mem_append] at hu
      rcases hu with hu | hu
      · exact ihf hf.1 hu
      · exact ihg hf.2 hu

/-- Every element of `dualUntilSubformulas` of a PNF formula is a dual-until
formula with PNF operands. -/
theorem mem_dualUntilSubformulas (f u : MTLF) (hf : f.isPNF = true)
    (hu : u ∈ f.dualUntilSubformulas) :
    ∃ a b i, u = MTLF.lduntil a b i ∧ a.isPNF = true ∧ b.isPNF = true := by
  induction f with
  | tt => simp [MTLF.dualUntilSubformulas] at hu
  | ff => simp [MTLF.dualUntilSubformulas] at hu
  | ap a => simp [MTLF.dualUntilSubformulas] at hu
  | lneg f ih =>
      cases f with
      | tt => simp [MTLF.dualUntilSubformulas] at hu
      | ff => simp [MTLF.dualUntilSubformulas] at hu
      | ap a => simp [MTLF.dualUntilSubformulas] at hu
      | lneg g => simp [MTLF.isPNF] at hf
      | land g g2 => simp [MTLF.isPNF] at hf
      | lor g g2 => simp [MTLF.isPNF] at hf
      | luntil g g2 i => simp [MTLF.isPNF] at hf
      | lduntil g g2 i => simp [MTLF.isPNF] at hf
  | land f g ihf ihg =>
      simp only [MTLF.isPNF, Bool.and_eq_true] at hf
      simp only [MTLF.dualUntilSubformulas, List.mem_dedup, List.mem_append] at hu
      rcases hu with hu | hu
      · exact ihf hf.1 hu
      · exact ihg hf.2 hu
  | lor f g ihf ihg =>
      simp only [MTLF.isPNF, Bool.and_eq_true] at hf
      simp only [MTLF.dualUntilSubformulas, List.mem_dedup, List.mem_append] at hu
      rcases hu with hu | hu
      · exact ihf hf.1 hu
      · exact ihg hf.2 hu
  | luntil f g i ihf ihg =>
      simp only [MTLF.isPNF, Bool.and_eq_true] at hf
      simp only [MTLF.dualUntilSubformulas, List.mem_dedup, List.mem_append] at hu
      rcases hu with hu | hu
      · exact ihf hf.1 hu
      · exact ihg hf.2 hu
  | lduntil f g i ihf ihg =>
      simp only [MTLF.isPNF, Bool.and_eq_true] at hf
      simp only [MTLF.dualUntilSubformulas, List.mem_dedup, List.mem_cons,
        List.mem_append] at hu
      rcases hu with hu | hu | hu
      · exact ⟨f, g, i, hu, hf.1, hf.2⟩
      · exact ihf hf.1 hu
      · exact ihg hf.2 hu

/-- Monadic map over `Except` succeeds when the function succeeds on every
element. -/
theorem mapE_ok {A B : Type} (l : List A) (f : A → Except TransError B)
    (h : ∀ x ∈ l, ∃ y, f x = Except.ok y) :
    ∃ ys, mapE f l = Except.ok ys := by
  induction l with
  | nil => exact ⟨[], rfl⟩
  | cons a l ih =>
      obtain ⟨y, hy⟩ := h a (List.mem_cons_self a l)
      obtain ⟨ys, hys⟩ := ih fun x hx => h x (List.mem_cons_of_mem a hx)
      refine ⟨y :: ys, ?_⟩
      simp [mapE, hy, hys, except_ok_bind]

/-- `untilTransition` succeeds on until formulas with PNF operands. -/
theorem untilTransition_ok (symbol : String) (a b : MTLF) (i : TimeInterval)
    (ha : a.isPNF = true) (hb : b.isPNF = true) :
    ∃ t, untilTransition symbol (MTLF.luntil a b i) = Except.ok t := by
  obtain ⟨ga, hga⟩ := init_ok_of_isPNF a symbol false ha
  obtain ⟨gb, hgb⟩ := init_ok_of_isPNF b symbol false hb
  refine ⟨⟨MTLF.luntil a b i, symbol,
    createDisjunction (createConjunction gb (createContains i))
      (createConjunction ga (AtaFormula.loc (MTLF.luntil a b i)))⟩, ?_⟩
  simp [untilTransition, hga, hgb, except_ok_bind]

/-- `dualUntilTransition` succeeds on dual-until formulas with PNF operands. -/
theorem dualUntilTransition_ok (symbol : String) (a b : MTLF) (i : TimeInterval)
    (ha : a.isPNF = true) (hb : b.isPNF = true) :
    ∃ t, dualUntilTransition symbol (MTLF.lduntil a b i) = Except.ok t := by
  obtain ⟨ga, hga⟩ := init_ok_of_isPNF a symbol false ha
  obtain ⟨gb, hgb⟩ := init_ok_of_isPNF b symbol false hb
  refine ⟨⟨MTLF.lduntil a b i, symbol,
    createConjunction (createDisjunction gb (createNegatedContains i))
      (createDisjunction ga (AtaFormula.loc (MTLF.lduntil a b i)))⟩, ?_⟩
  simp [dualUntilTransition, hga, hgb, except_ok_bind]

/-- `transitionsForSymbol` succeeds for a PNF formula and its closures. -/
theorem transitionsForSymbol_ok (formula : MTLF) (symbol : String)
    (hf : formula.isPNF = true) :
    ∃ ts, transitionsForSymbol formula formula.untilSubformulas
      formula.dualUntilSubformulas symbol = Except.ok ts := by
  obtain ⟨g0, hg0⟩ := init_ok_of_isPNF formula symbol true hf
  obtain ⟨tu, htu⟩ := mapE_ok formula.untilSubformulas (untilTransition symbol)
    (by
      intro u hu
      obtain ⟨a, b, i, rfl, ha, hb⟩ := mem_untilSubformulas formula u hf hu
      exact untilTransition_ok symbol a b i ha hb)
  obtain ⟨td, htd⟩ := mapE_ok formula.dualUntilSubformulas
    (dualUntilTransition symbol)
    (by
      intro u hu
      obtain ⟨a, b, i, rfl, ha, hb⟩ := mem_dualUntilSubformulas formula u hf hu
      exact dualUntilTransition_ok symbol a b i ha hb)
  refine ⟨⟨MTLF.ap "l0", symbol, g0⟩ :: (tu ++ td), ?_⟩
  simp [transitionsForSymbol, hg0, htu, htd, except_ok_bind]

/-- When the effective alphabet avoids `l0`, `translate` constructs an ATA. -/
theorem translate_ok (f : MTLF) (alphabet : Finset String)
    (h : "l0" ∉ (if alphabet = ∅ then (MTLF.pnf f).getAlphabet else alphabet)) :
    ∃ a, translate f alphabet = Except.ok a := by
  obtain ⟨lists, hlists⟩ :=
    mapE_ok ((if alphabet = ∅ then (MTLF.pnf f).getAlphabet else alphabet).sort (· ≤ ·))
      (transitionsForSymbol (MTLF.pnf f) (MTLF.pnf f).untilSubformulas
        (MTLF.pnf f).dualUntilSubformulas)
      (fun s _ => transitionsForSymbol_ok (MTLF.pnf f) s (pnf_isPNF f))
  refine ⟨{ alphabet := if alphabet = ∅ then (MTLF.pnf f).getAlphabet else alphabet
            initial := MTLF.ap "l0"
            accepting := (MTLF.pnf f).dualUntilSubformulas
            transitions := lists.flatten.toFinset }, ?_⟩
  simp only [translate, h, if_false, except_ok_bind, reduceIte, ite_false]
  rw [hlists]
  rfl

end Mtlsyn

namespace Mtlsyn

/-- C6: `translate` throws `std::invalid_argument` if and only if the
effective alphabet (the given Σ, or the formula's atomic propositions when Σ
is empty) contains the reserved initial-location symbol `l0`; the error
result carries no constructed ATA. -/
theorem translate_invalidArgument_iff (f : MTLF) (alphabet : Finset String) :
    (∃ msg, translate f alphabet =
      Except.error (TransError.invalidArgument msg)) ↔
    "l0" ∈ (if alphabet = ∅ then f.getAlphabet else alphabet) := by
  constructor
  · rintro ⟨msg, hmsg⟩
    by_contra hmem
    have hmem2 : "l0" ∉
        (if alphabet = ∅ then (MTLF.pnf f).getAlphabet else alphabet) := by
      rwa [pnf_getAlphabet]
    obtain ⟨a, ha⟩ := translate_ok f alphabet hmem2
    rw [ha] at hmsg
    cases hmsg
  · intro hmem
    have hmem2 : "l0" ∈
        (if alphabet = ∅ then (MTLF.pnf f).getAlphabet else alphabet) := by
      rwa [pnf_getAlphabet]
    refine ⟨"The formula alphabet must not contain the symbol l0", ?_⟩
    simp only [translate, hmem2, if_true, reduceIte]
    rfl

/-- C7: translation first normalizes its argument to positive normal form,
so translating `PNF(φ)` produces exactly the same ATA (or the same error) as
translating φ itself. -/
theorem translate_pnf_invariant (f : MTLF) (alphabet : Finset String) :
    translate (MTLF.pnf f) alphabet = translate f alphabet := by
  unfold translate
  rw [pnf_idem]

end Mtlsyn

namespace Mtlsyn

/-! ## Region states and canonical AB words

From `synchronous_product/canonical_word.h` (the definitions are not among
the sources; shapes fixed by their uses in `search.h`,
`create_controller.h` and the tests): a canonical AB word is an ordered
sequence of sets of region symbols, each either a TA region state
`(location, clock, regionIndex)` or an ATA region state
`(formula, regionIndex)`.
-/

/-- `TARegionState(location, clockName, regionIndex)`. -/
structure TARegionState where
  loc : String
  clock : String
  regionIndex : ℕ
deriving DecidableEq, Repr

/-- `ATARegionState(formula, regionIndex)`. -/
structure ATARegionState where
  formula : MTLF
  regionIndex : ℕ
deriving DecidableEq, Repr

/-- `ABRegionSymbol`: a variant over TA and ATA region states. -/
inductive ABRegionSymbol where
  | taState (s : TARegionState)
  | ataState (s : ATARegionState)
deriving DecidableEq, Repr

/-- A canonical AB word: an ordered partition (vector of sets) of region
symbols. -/
abbrev CanonicalABWord := List (Finset ABRegionSymbol)

/-- The predicate checked by the innermost `find_if` of
`has_satisfiable_ata_configuration` (search.h lines 55–63): the region
symbol is an ATA region state whose formula is the sink location. -/
def isSinkState (rs : ABRegionSymbol) : Bool :=
  match rs with
  | ABRegionSymbol.ataState s => s.formula = MTLF.ap "sink"
  | ABRegionSymbol.taState _ => false

/-- The `any_of` level of `has_satisfiable_ata_configuration`: some
component of the word contains the ATA sink location (the inner `find_if`
over the component becomes a bounded existential over the set). -/
def wordContainsSink (word : CanonicalABWord) : Bool :=
  word.any fun component => decide (∃ rs ∈ component, isSinkState rs = true)

/-- `has_satisfiable_ata_configuration` (search.h lines 49–66): false iff
every word of the node contains an ATA sink location. -/
def hasSatisfiableAtaConfiguration (words : Finset CanonicalABWord) : Bool :=
  !(decide (∀ w ∈ words, wordContainsSink w = true))

/-! ## The early-exit chain of `expand_node` (search.h lines 199–235) -/

/-- Node states (`search_tree.h`, shapes fixed by uses in `search.h`). -/
inductive NodeState where
  | unknown
  | good
  | bad
  | dead
deriving DecidableEq, Repr

/-- Node labels (`search_tree.h`, shapes fixed by uses in `search.h`). -/
inductive NodeLabel where
  | unlabeled
  | top
  | bottom
  | canceled
deriving DecidableEq, Repr

/-- The action `expand_node` takes on a node before computing successors. -/
inductive ExpandAction where
  | skip
  | markBad
  | markGoodNoAta
  | markGoodDomination
  | computeSuccessors
deriving DecidableEq, Repr

/-- `is_bad_node` (search.h lines 132–140): some word of the node has a
candidate accepted by both the plant and the ATA.  The acceptance check
(`get_candidate` plus `is_accepting_configuration` of TA and ATA) lives in
headers not among the sources and is passed in as a predicate. -/
def isBadNode (acceptingCandidate : CanonicalABWord → Bool)
    (words : Finset CanonicalABWord) : Bool :=
  decide (∃ w ∈ words, acceptingCandidate w = true)

/-- The mutually exclusive early exits of `expand_node` in source order:
already expanded or labeled, bad node, no satisfiable ATA configuration,
monotonic domination by an ancestor, otherwise successor computation.
Domination (`is_monotonically_dominated`, not among the sources) is passed
in as a boolean. -/
def expandNodeClassify (isExpanded : Bool) (label : NodeLabel)
    (acceptingCandidate : CanonicalABWord → Bool) (dominated : Bool)
    (words : Finset CanonicalABWord) : ExpandAction :=
  if isExpanded || !(label = NodeLabel.unlabeled) then ExpandAction.skip
  else if isBadNode acceptingCandidate words then ExpandAction.markBad
  else if !(hasSatisfiableAtaConfiguration words) then ExpandAction.markGoodNoAta
  else if dominated then ExpandAction.markGoodDomination
  else ExpandAction.computeSuccessors

/-- C3 (amended): an unexpanded, unlabeled, not-bad node is marked
state=GOOD with reason NO_ATA_SUCCESSOR exactly when every word in the node
contains the ATA sink location in SOME component. -/
theorem expandNode_goodNoAta_iff (acceptingCandidate : CanonicalABWord → Bool)
    (dominated : Bool) (words : Finset CanonicalABWord)
    (hbad : isBadNode acceptingCandidate words = false) :
    expandNodeClassify false NodeLabel.unlabeled acceptingCandidate dominated
      words = ExpandAction.markGoodNoAta ↔
    ∀ w ∈ words, ∃ comp ∈ w, ∃ rs ∈ comp, isSinkState rs = true := by
  have hPQ : (∀ w ∈ words, wordContainsSink w = true) ↔
      (∀ w ∈ words, ∃ comp ∈ w, ∃ rs ∈ comp, isSinkState rs = true) := by
    apply forall₂_congr
    intro w hw
    simp [wordContainsSink]
  rw [← hPQ]
  by_cases hP : ∀ w ∈ words, wordContainsSink w = true
  · have hdec : hasSatisfiableAtaConfiguration words = false := by
      rw [hasSatisfiableAtaConfiguration, decide_eq_true hP]
      rfl
    constructor
    · intro _
      exact hP
    · intro _
      simp [expandNodeClassify, hbad, hdec]
  · have hdec : hasSatisfiableAtaConfiguration words = true := by
      rw [hasSatisfiableAtaConfiguration, decide_eq_false hP]
      rfl
    cases hdom : dominated
    all_goals simp [expandNodeClassify, hbad, hdec, hdom, hP]

end Mtlsyn

namespace Mtlsyn

/-- The node words used in the counterexample to the every-component reading
of the GOOD condition: one word whose first component holds a TA state and a
non-sink ATA state and whose second component holds the sink (the node
checked in test_search.cpp lines 585–586). -/
def cexNodeWords : Finset CanonicalABWord :=
  {[{ABRegionSymbol.taState ⟨"l0", "x", 0⟩,
     ABRegionSymbol.ataState ⟨MTLF.ap "a", 0⟩},
    {ABRegionSymbol.ataState ⟨MTLF.ap "sink", 0⟩}]}

/-- C3 counterexample: `expand_node` marks this not-bad node GOOD with
reason NO_ATA_SUCCESSOR although not every component of its word contains
the ATA sink, refuting the every-component reading of the claim. -/
theorem expandNode_goodNoAta_counterexample :
    expandNodeClassify false NodeLabel.unlabeled (fun _ => false) false
      cexNodeWords = ExpandAction.markGoodNoAta ∧
    ¬(∀ w ∈ cexNodeWords, ∀ comp ∈ w, ∃ rs ∈ comp, isSinkState rs = true) := by
  constructor
  · decide
  · decide

/-- Witness for the amended C3 theorem at the counterexample node. -/
theorem expandNode_goodNoAta_iff_witness :
    isBadNode (fun _ => false) cexNodeWords = false ∧
    (expandNodeClassify false NodeLabel.unlabeled (fun _ => false) false
        cexNodeWords = ExpandAction.markGoodNoAta ↔
      ∀ w ∈ cexNodeWords, ∃ comp ∈ w, ∃ rs ∈ comp, isSinkState rs = true) :=
  ⟨by decide,
    expandNode_goodNoAta_iff (fun _ => false) false cexNodeWords (by decide)⟩

/-- C10: a node with an empty words set has no satisfiable ATA
configuration (the universally quantified check is vacuously true), so
`expand_node` marks it state=GOOD with reason NO_ATA_SUCCESSOR instead of
expanding it, for every candidate-acceptance predicate and every domination
outcome. -/
theorem expandNode_empty_words_good
    (acceptingCandidate : CanonicalABWord → Bool) (dominated : Bool) :
    hasSatisfiableAtaConfiguration (∅ : Finset CanonicalABWord) = false ∧
    expandNodeClassify false NodeLabel.unlabeled acceptingCandidate dominated
      (∅ : Finset CanonicalABWord) = ExpandAction.markGoodNoAta := by
  have h1 : hasSatisfiableAtaConfiguration (∅ : Finset CanonicalABWord) = false := rfl
  have hb : isBadNode acceptingCandidate (∅ : Finset CanonicalABWord) = false := rfl
  exact ⟨h1, by simp [expandNodeClassify, hb, h1]⟩

/-! ## The CLI launcher (`main.cpp`, in the sources) -/

/-- Modelled from the spec: the outcome of constructing an `app::Launcher`
from the command line and calling `run()` (`app.cpp` is not among the
sources): the run either completes or throws an exception carrying a
message. -/
inductive RunOutcome where
  | completed
  | threw (msg : String)
deriving DecidableEq, Repr

/-- `main` from `main.cpp` lines 26–37: run the launcher inside a
try-block, return 0 on completion, print the diagnostic and return 1 when
an exception reaches the catch handler. -/
def mainExitCode (launcher : List String → RunOutcome)
    (argv : List String) : Int :=
  match launcher argv with
  | RunOutcome.completed => 0
  | RunOutcome.threw _ => 1

/-- C8: for every launcher behavior and every command line, the process
exits 0 exactly when the run completes without an exception and exits 1
exactly when an uncaught exception escapes the launcher. -/
theorem main_exit_codes (launcher : List String → RunOutcome)
    (argv : List String) :
    (mainExitCode launcher argv = 0 ↔ launcher argv = RunOutcome.completed) ∧
    (mainExitCode launcher argv = 1 ↔
      ∃ msg, launcher argv = RunOutcome.threw msg) := by
  cases h : launcher argv
  all_goals simp [mainExitCode, h]

/-! ## The `TreeSearch` constructor assertions (search.h lines 105–116) -/

/-- The first constructor assertion: every controller action is absent from
the environment actions. -/
def assertsControllerNotEnv (controllerActions environmentActions :
    Finset String) : Prop :=
  ∀ a ∈ controllerActions, a ∉ environmentActions

/-- The second constructor assertion: every environment action is absent
from the controller actions. -/
def assertsEnvNotController (controllerActions environmentActions :
    Finset String) : Prop :=
  ∀ a ∈ environmentActions, a ∉ controllerActions

/-- C9: when the controller and environment action sets are disjoint, both
`assert` conditions in the `TreeSearch` constructor hold, so the assertion
branch is unreachable for every constructed search. -/
theorem treeSearch_action_asserts (c e : Finset String)
    (h : ∀ a, ¬(a ∈ c ∧ a ∈ e)) :
    assertsControllerNotEnv c e ∧ assertsEnvNotController c e := by
  constructor
  · intro a ha hae
    exact h a ⟨ha, hae⟩
  · intro a ha hac
    exact h a ⟨hac, ha⟩

/-- Witness for the constructor assertions on a concrete disjoint pair. -/
theorem treeSearch_action_asserts_witness :
    assertsControllerNotEnv {"a"} {"b"} ∧ assertsEnvNotController {"a"} {"b"} :=
  treeSearch_action_asserts {"a"} {"b"}
    (by
      intro a ha
      rw [Finset.mem_singleton, Finset.mem_singleton] at ha
      obtain ⟨h1, h2⟩ := ha
      subst h1
      exact absurd h2 (by decide))

end Mtlsyn

namespace Mtlsyn

/-! ## Search tree nodes and batch labeling (search.h lines 309–345)

A `SearchTreeNode` (search_tree.h is not among the sources; the fields are
fixed by their uses in `search.h`, `create_controller.h` and the tests)
carries a state, the set of `(regionIncrement, action)` pairs reaching it,
a label, and its children.  `incoming_actions` is a `std::set`; labeling
only takes minima and existentials over it, so it is embedded as a list.
`terminate_early` is false throughout (the claims do not involve
cancellation).
-/

/-- A search tree node. -/
inductive SNode where
  | mk (state : NodeState) (incoming : List (ℕ × String)) (label : NodeLabel)
      (children : List SNode)

/-- The state of a node. -/
def SNode.state : SNode → NodeState
  | SNode.mk st _ _ _ => st

/-- The incoming `(regionIncrement, action)` pairs of a node. -/
def SNode.incoming : SNode → List (ℕ × String)
  | SNode.mk _ inc _ _ => inc

/-- The label of a node. -/
def SNode.label : SNode → NodeLabel
  | SNode.mk _ _ lab _ => lab

/-- The children of a node. -/
def SNode.children : SNode → List SNode
  | SNode.mk _ _ _ cs => cs

/-- The steps contributed by one child to `first_good_controller_step`:
its incoming steps with a controller action, provided it is labeled TOP. -/
def goodControllerSteps (c : Finset String) (ch : SNode) : List ℕ :=
  if ch.label = NodeLabel.top then
    (ch.incoming.filter fun p => p.2 ∈ c).map Prod.fst
  else []

/-- The steps contributed by one child to `first_bad_environment_step`:
its incoming steps with an environment action, provided it is labeled
BOTTOM. -/
def badEnvironmentSteps (e : Finset String) (ch : SNode) : List ℕ :=
  if ch.label = NodeLabel.bottom then
    (ch.incoming.filter fun p => p.2 ∈ e).map Prod.fst
  else []

/-- Minimum of a list of steps, `⊤` when the list is empty (the C++ code
uses the `std::numeric_limits` maximum as the neutral element). -/
def minStep (l : List ℕ) : WithTop ℕ :=
  l.foldr (fun n acc => min (n : WithTop ℕ) acc) ⊤

/-- `first_good_controller_step` over all children. -/
def firstGoodControllerStep (c : Finset String) (children : List SNode) :
    WithTop ℕ :=
  minStep ((children.map (goodControllerSteps c)).flatten)

/-- `first_bad_environment_step` over all children. -/
def firstBadEnvironmentStep (e : Finset String) (children : List SNode) :
    WithTop ℕ :=
  minStep ((children.map (badEnvironmentSteps e)).flatten)

/-- The `found_bad` flag of `TreeSearch::label`: some child labeled BOTTOM
is reached by an environment action. -/
def foundBadEnv (e : Finset String) (children : List SNode) : Prop :=
  ∃ ch ∈ children, ch.label = NodeLabel.bottom ∧ ∃ p ∈ ch.incoming, p.2 ∈ e

instance (e : Finset String) (children : List SNode) :
    Decidable (foundBadEnv e children) := by
  unfold foundBadEnv
  infer_instance

/-- The internal-node decision of `TreeSearch::label` (search.h lines
323–343): TOP when no bad environment step exists or the best good
controller step strictly precedes the first bad environment step, BOTTOM
otherwise. -/
def labelDecision (c e : Finset String) (children : List SNode) : NodeLabel :=
  if ¬foundBadEnv e children ∨
      firstGoodControllerStep c children < firstBadEnvironmentStep e children
  then NodeLabel.top
  else NodeLabel.bottom

/-- `TreeSearch::label` (search.h lines 309–345): leaves are labeled from
their state (GOOD/DEAD to TOP, BAD to BOTTOM) and do not recurse; internal
nodes label their children post-order and apply `labelDecision`. -/
def batchLabel (c e : Finset String) (t : SNode) : SNode :=
  match t with
  | SNode.mk st inc _ children =>
    match st with
    | NodeState.good => SNode.mk st inc NodeLabel.top children
    | NodeState.dead => SNode.mk st inc NodeLabel.top children
    | NodeState.bad => SNode.mk st inc NodeLabel.bottom children
    | NodeState.unknown =>
        let labeled := children.attach.map fun ch => batchLabel c e ch.1
        SNode.mk st inc (labelDecision c e labeled) labeled
termination_by sizeOf t
decreasing_by
  simp only [SNode.mk.sizeOf_spec]
  have := List.sizeOf_lt_of_mem ch.2
  omega

/-- Unfolding `batchLabel` on an internal node. -/
theorem batchLabel_unknown (c e : Finset String) (inc : List (ℕ × String))
    (lab : NodeLabel) (children : List SNode) :
    batchLabel c e (SNode.mk NodeState.unknown inc lab children) =
      SNode.mk NodeState.unknown inc
        (labelDecision c e (children.map (batchLabel c e)))
        (children.map (batchLabel c e)) := by
  rw [batchLabel]
  simp [List.attach_map_coe]

end Mtlsyn

namespace Mtlsyn

/-- C4: batch labeling labels leaves from their state (GOOD/DEAD to TOP,
BAD to BOTTOM); an internal node (state UNKNOWN) with recursively labeled
children is labeled TOP iff no child reached by an environment action is
labeled BOTTOM, or the minimal region increment over TOP-labeled
controller-action children strictly precedes the minimal region increment
over BOTTOM-labeled environment-action children, and BOTTOM otherwise. -/
theorem batchLabel_rule (c e : Finset String) (st : NodeState)
    (inc : List (ℕ × String)) (lab : NodeLabel) (children : List SNode) :
    ((st = NodeState.good ∨ st = NodeState.dead) →
      (batchLabel c e (SNode.mk st inc lab children)).label = NodeLabel.top) ∧
    (st = NodeState.bad →
      (batchLabel c e (SNode.mk st inc lab children)).label =
        NodeLabel.bottom) ∧
    (st = NodeState.unknown →
      (((batchLabel c e (SNode.mk st inc lab children)).label =
          NodeLabel.top ↔
        (¬(∃ ch ∈ children.map (batchLabel c e),
              ch.label = NodeLabel.bottom ∧ ∃ p ∈ ch.incoming, p.2 ∈ e) ∨
          firstGoodControllerStep c (children.map (batchLabel c e)) <
            firstBadEnvironmentStep e (children.map (batchLabel c e)))) ∧
       ((batchLabel c e (SNode.mk st inc lab children)).label =
          NodeLabel.bottom ↔
        ¬(¬(∃ ch ∈ children.map (batchLabel c e),
              ch.label = NodeLabel.bottom ∧ ∃ p ∈ ch.incoming, p.2 ∈ e) ∨
          firstGoodControllerStep c (children.map (batchLabel c e)) <
            firstBadEnvironmentStep e (children.map (batchLabel c e)))))) := by
  refine ⟨?_, ?_, ?_⟩
  · rintro (rfl | rfl)
    · rw [batchLabel]
      rfl
    · rw [batchLabel]
      rfl
  · rintro rfl
    rw [batchLabel]
    rfl
  · rintro rfl
    rw [batchLabel_unknown]
    simp only [SNode.label]
    by_cases hcond : ¬foundBadEnv e (children.map (batchLabel c e)) ∨
        firstGoodControllerStep c (children.map (batchLabel c e)) <
          firstBadEnvironmentStep e (children.map (batchLabel c e))
    · rw [labelDecision, if_pos hcond]
      constructor
      · constructor
        · intro _
          exact hcond
        · intro _
          rfl
      · constructor
        · intro h
          exact absurd h (by decide)
        · intro h
          exact absurd hcond h
    · rw [labelDecision, if_neg hcond]
      constructor
      · constructor
        · intro h
          exact absurd h (by decide)
        · intro h
          exact absurd h hcond
      · constructor
        · intro _
          exact hcond
        · intro _
          rfl

end Mtlsyn

namespace Mtlsyn

/-! ## Controller extraction (`create_controller.h`, in the sources)

The search tree seen by controller extraction: every node carries its set
of canonical words, its final label and its incoming actions.  The
composition `get_constraints_from_time_successor ∘ get_nth_time_successor ∘
reg_a` (the latter two live in headers not among the sources) is passed in
as a function `cf` from the parent's words and the region increment to a
guard; it feeds only guards and clock names, which the claim does not
constrain.
-/

/-- A labeled search tree node with its canonical words. -/
inductive CNode where
  | mk (words : Finset CanonicalABWord) (label : NodeLabel)
      (incoming : List (ℕ × String)) (children : List CNode)

/-- The words of a node. -/
def CNode.words : CNode → Finset CanonicalABWord
  | CNode.mk w _ _ _ => w

/-- The label of a node. -/
def CNode.label : CNode → NodeLabel
  | CNode.mk _ lab _ _ => lab

/-- The incoming `(regionIncrement, action)` pairs of a node. -/
def CNode.incoming : CNode → List (ℕ × String)
  | CNode.mk _ _ inc _ => inc

/-- The children of a node. -/
def CNode.children : CNode → List CNode
  | CNode.mk _ _ _ cs => cs

/-- A transition of the extracted controller: source and target locations
are sets of canonical words, the guard is a clock-constraint multimap, and
the reset set is empty in the current design. -/
structure CtrlTransition where
  source : Finset CanonicalABWord
  action : String
  target : Finset CanonicalABWord
  guard : List (String × ClockConstraint)
  resets : Finset String
deriving DecidableEq

/-- The extracted controller TA over location type `set of canonical AB
words`. -/
structure Controller where
  locations : Finset (Finset CanonicalABWord)
  alphabet : Finset String
  clocks : Finset String
  initialLocation : Finset CanonicalABWord
  finalLocations : Finset (Finset CanonicalABWord)
  transitions : List CtrlTransition
deriving DecidableEq

/-- The body of the per-successor loop in `add_node_to_controller`
(create_controller.h lines 73–92): add the TOP child's words as a location
and a final location, then for each incoming `(regionIncrement, action)`
pair add the action, the clocks of the computed guard, and the transition
from the parent's words to the child's words with empty resets. -/
def addSuccessorData
    (cf : Finset CanonicalABWord → ℕ → List (String × ClockConstraint))
    (node succ : CNode) (ctrl : Controller) : Controller :=
  succ.incoming.foldl
    (fun acc p =>
      let constraints := cf node.words p.1
      { acc with
        alphabet := insert p.2 acc.alphabet
        clocks := acc.clocks ∪ (constraints.map Prod.fst).toFinset
        transitions := acc.transitions ++
          [⟨node.words, p.2, succ.words, constraints, ∅⟩] })
    { ctrl with
      locations := insert succ.words ctrl.locations
      finalLocations := insert succ.words ctrl.finalLocations }

mutual

/-- `details::add_node_to_controller` (create_controller.h lines 55–95):
throw unless the node is labeled TOP, then process each TOP child in order
and recurse into it; non-TOP children are skipped. -/
def addNodeToController
    (cf : Finset CanonicalABWord → ℕ → List (String × ClockConstraint))
    (node : CNode) (ctrl : Controller) : Except String Controller :=
  if node.label = NodeLabel.top then
    addChildrenToController cf node node.children ctrl
  else
    Except.error "Cannot create a controller for a node that is not labeled with TOP"
termination_by sizeOf node
decreasing_by
  cases node
  simp [CNode.children]
  try omega

/-- The successor loop of `add_node_to_controller` over a list of
children. -/
def addChildrenToController
    (cf : Finset CanonicalABWord → ℕ → List (String × ClockConstraint))
    (node : CNode) (cs : List CNode) (ctrl : Controller) :
    Except String Controller :=
  match cs with
  | [] => Except.ok ctrl
  | succ :: rest =>
      if succ.label = NodeLabel.top then do
        let acc2 ← addNodeToController cf succ (addSuccessorData cf node succ ctrl)
        addChildrenToController cf node rest acc2
      else addChildrenToController cf node rest ctrl
termination_by sizeOf cs
decreasing_by
  all_goals simp
  all_goals omega

end

/-- `create_controller` (create_controller.h lines 99–114): start from a
controller whose initial location is the root's words with empty alphabet
and final set, then walk the tree. -/
def createController
    (cf : Finset CanonicalABWord → ℕ → List (String × ClockConstraint))
    (root : CNode) : Except String Controller :=
  addNodeToController cf root
    { locations := {root.words}
      alphabet := ∅
      clocks := ∅
      initialLocation := root.words
      finalLocations := ∅
      transitions := [] }

mutual

/-- The words-sets of all TOP-labeled proper descendants reachable from the
node through TOP-labeled children. -/
def topWordsBelow : CNode → Finset (Finset CanonicalABWord)
  | CNode.mk _ _ _ children => topWordsChildren children
termination_by t => sizeOf t

/-- `topWordsBelow` accumulated over a list of children. -/
def topWordsChildren : List CNode → Finset (Finset CanonicalABWord)
  | [] => ∅
  | ch :: rest =>
      (if ch.label = NodeLabel.top then insert ch.words (topWordsBelow ch)
       else ∅) ∪ topWordsChildren rest
termination_by cs => sizeOf cs

end

end Mtlsyn

namespace Mtlsyn

/-- Unfolding lemma for `addNodeToController`. -/
theorem addNodeToController_eq
    (cf : Finset CanonicalABWord → ℕ → List (String × ClockConstraint))
    (node : CNode) (ctrl : Controller) :
    addNodeToController cf node ctrl =
      if node.label = NodeLabel.top then
        addChildrenToController cf node node.children ctrl
      else
        Except.error
          "Cannot create a controller for a node that is not labeled with TOP" := by
  rw [addNodeToController]

/-- Unfolding lemma for `addChildrenToController` on the empty list. -/
theorem addChildrenToController_nil
    (cf : Finset CanonicalABWord → ℕ → List (String × ClockConstraint))
    (node : CNode) (ctrl : Controller) :
    addChildrenToController cf node [] ctrl = Except.ok ctrl := by
  rw [addChildrenToController]

/-- Unfolding lemma for `addChildrenToController` on a cons cell. -/
theorem addChildrenToController_cons
    (cf : Finset CanonicalABWord → ℕ → List (String × ClockConstraint))
    (node succ : CNode) (rest : List CNode) (ctrl : Controller) :
    addChildrenToController cf node (succ :: rest) ctrl =
      (if succ.label = NodeLabel.top then do
        let acc2 ← addNodeToController cf succ (addSuccessorData cf node succ ctrl)
        addChildrenToController cf node rest acc2
      else addChildrenToController cf node rest ctrl) := by
  rw [addChildrenToController]

/-- Unfolding lemma for `topWordsBelow`. -/
theorem topWordsBelow_eq (w : Finset CanonicalABWord) (lab : NodeLabel)
    (inc : List (ℕ × String)) (children : List CNode) :
    topWordsBelow (CNode.mk w lab inc children) = topWordsChildren children := by
  rw [topWordsBelow]

/-- Unfolding lemma for `topWordsChildren` on a cons cell. -/
theorem topWordsChildren_cons (ch : CNode) (rest : List CNode) :
    topWordsChildren (ch :: rest) =
      (if ch.label = NodeLabel.top then insert ch.words (topWordsBelow ch)
       else ∅) ∪ topWordsChildren rest := by
  rw [topWordsChildren]

/-- A `foldl` whose step preserves the final locations leaves them
unchanged. -/
theorem foldl_final_invariant (f : Controller → (ℕ × String) → Controller)
    (hf : ∀ a p, (f a p).finalLocations = a.finalLocations) :
    ∀ (l : List (ℕ × String)) (acc : Controller),
      (l.foldl f acc).finalLocations = acc.finalLocations := by
  intro l
  induction l with
  | nil => intro acc; rfl
  | cons p rest ih =>
      intro acc
      rw [List.foldl_cons, ih, hf]

/-- `addSuccessorData` adds exactly the successor's words to the final
locations. -/
theorem addSuccessorData_final
    (cf : Finset CanonicalABWord → ℕ → List (String × ClockConstraint))
    (node succ : CNode) (ctrl : Controller) :
    (addSuccessorData cf node succ ctrl).finalLocations =
      insert succ.words ctrl.finalLocations := by
  rw [addSuccessorData, foldl_final_invariant]
  intro a p
  rfl

end Mtlsyn

namespace Mtlsyn

/-- Joint induction: walking a TOP node (or a child list) always succeeds
and adds exactly the TOP descendants' words-sets to the final locations. -/
theorem addController_final_aux
    (cf : Finset CanonicalABWord → ℕ → List (String × ClockConstraint)) :
    ∀ n : ℕ,
      (∀ node acc, sizeOf node ≤ n → CNode.label node = NodeLabel.top →
        ∃ ctrl, addNodeToController cf node acc = Except.ok ctrl ∧
          ctrl.finalLocations = acc.finalLocations ∪ topWordsBelow node) ∧
      (∀ node cs acc, sizeOf cs ≤ n →
        ∃ ctrl, addChildrenToController cf node cs acc = Except.ok ctrl ∧
          ctrl.finalLocations = acc.finalLocations ∪ topWordsChildren cs) := by
  intro n
  induction n using Nat.strong_induction_on with
  | _ n ih =>
    constructor
    · intro node acc hsize hlab
      cases node with
      | mk w lab inc children =>
        have h1 : sizeOf children < sizeOf (CNode.mk w lab inc children) := by
          simp
        obtain ⟨ctrl, hc, hfin⟩ :=
          (ih (sizeOf children) (lt_of_lt_of_le h1 hsize)).2
            (CNode.mk w lab inc children) children acc le_rfl
        refine ⟨ctrl, ?_, ?_⟩
        · rw [addNodeToController_eq, if_pos hlab]
          exact hc
        · rw [topWordsBelow_eq]
          exact hfin
    · intro node cs acc hsize
      induction cs generalizing acc with
      | nil =>
          refine ⟨acc, addChildrenToController_nil cf node acc, ?_⟩
          rw [topWordsChildren]
          simp
      | cons succ rest ihrest =>
          have hsucc : sizeOf succ < n := by
            have : sizeOf succ < sizeOf (succ :: rest) := by
              simp
              omega
            omega
          have hrest : sizeOf rest ≤ n := by
            have : sizeOf rest < sizeOf (succ :: rest) := by
              simp
              try omega
            omega
          by_cases hl : CNode.label succ = NodeLabel.top
          · obtain ⟨c2, hc2, hfin2⟩ :=
              (ih (sizeOf succ) hsucc).1 succ (addSuccessorData cf node succ acc)
                le_rfl hl
            obtain ⟨c3, hc3, hfin3⟩ := ihrest c2 hrest
            refine ⟨c3, ?_, ?_⟩
            · rw [addChildrenToController_cons, if_pos hl, hc2]
              simpa [except_ok_bind] using hc3
            · rw [hfin3, hfin2, addSuccessorData_final, topWordsChildren_cons,
                if_pos hl]
              rw [Finset.insert_eq]
              ext x
              simp
              try tauto
          · obtain ⟨c3, hc3, hfin3⟩ := ihrest acc hrest
            refine ⟨c3, ?_, ?_⟩
            · rw [addChildrenToController_cons, if_neg hl]
              exact hc3
            · rw [hfin3, topWordsChildren_cons, if_neg hl]
              simp

end Mtlsyn

namespace Mtlsyn

/-- C5 (amended): for a root labeled TOP, `create_controller` returns a
controller whose accepting locations are exactly the words-sets of the
TOP-labeled nodes of the walked subtree EXCLUDING the root (the root's
words only become the initial location), and it throws when the root is not
labeled TOP. -/
theorem createController_spec
    (cf : Finset CanonicalABWord → ℕ → List (String × ClockConstraint))
    (root : CNode) :
    (CNode.label root = NodeLabel.top →
      ∃ ctrl, createController cf root = Except.ok ctrl ∧
        ctrl.finalLocations = topWordsBelow root) ∧
    (CNode.label root ≠ NodeLabel.top →
      createController cf root = Except.error
        "Cannot create a controller for a node that is not labeled with TOP") := by
  constructor
  · intro h
    obtain ⟨ctrl, hc, hfin⟩ := (addController_final_aux cf (sizeOf root)).1 root
      { locations := {root.words}
        alphabet := ∅
        clocks := ∅
        initialLocation := root.words
        finalLocations := ∅
        transitions := [] } le_rfl h
    refine ⟨ctrl, ?_, ?_⟩
    · rw [createController]
      exact hc
    · rw [hfin]
      simp
  · intro h
    rw [createController, addNodeToController_eq, if_neg h]

/-- The tree refuting the root-inclusion part of the claim: a sole TOP root
with no children. -/
def cexControllerRoot : CNode := CNode.mk ∅ NodeLabel.top [] []

/-- C5 counterexample: on a TOP root without children the extracted
controller has NO accepting locations, while the claim as stated demands
the root's words-set to be accepting. -/
theorem createController_root_not_final :
    (createController (fun _ _ => []) cexControllerRoot).map
        (fun ctrl => ctrl.finalLocations) =
      Except.ok (∅ : Finset (Finset CanonicalABWord)) ∧
    CNode.label cexControllerRoot = NodeLabel.top ∧
    (∅ : Finset (Finset CanonicalABWord)) ≠ {CNode.words cexControllerRoot} := by
  refine ⟨?_, rfl, ?_⟩
  · rw [createController, addNodeToController_eq,
      if_pos (show CNode.label cexControllerRoot = NodeLabel.top from rfl)]
    rw [show CNode.children cexControllerRoot = [] from rfl]
    rw [addChildrenToController_nil]
    rfl
  · intro h
    exact Finset.singleton_ne_empty _ h.symm

end Mtlsyn

namespace Mtlsyn

/-! ## Incremental labeling (spec §4.5)

`SearchTreeNode::set_label` and `SearchTreeNode::label_propagate` live in
`search_tree.h`, which is not among the sources; they are modelled from the
spec: when a leaf resolves (GOOD/DEAD to TOP, BAD to BOTTOM) it propagates
upward; a parent is labeled exactly when the batch decision is determined
by the currently known children, i.e. every completion of the unlabeled
children yields the same decision ("even considering unlabeled siblings'
best case / worst case"); propagation continues upward while parents become
labeled and stops otherwise.  `terminate_early` is false (no cancellation).
The incremental run is a sequence of leaf-resolution events in an
arbitrary order, matching the arbitrary dequeue order of the pool.
-/

/-- The label a leaf takes from its state: GOOD and DEAD map to TOP, BAD to
BOTTOM (expand_node, search.h lines 206–235 and 296–303). -/
def stateLabel : NodeState → NodeLabel
  | NodeState.good => NodeLabel.top
  | NodeState.dead => NodeLabel.top
  | NodeState.bad => NodeLabel.bottom
  | NodeState.unknown => NodeLabel.unlabeled

/-- Replace the label at the root of a node. -/
def SNode.withLabel : SNode → NodeLabel → SNode
  | SNode.mk st inc _ cs, lab => SNode.mk st inc lab cs

/-- All completions of a child list: children already labeled TOP or BOTTOM
are kept, every other child is resolved both ways. -/
def completions : List SNode → List (List SNode)
  | [] => [[]]
  | ch :: rest =>
      let rests := completions rest
      if ch.label = NodeLabel.top ∨ ch.label = NodeLabel.bottom then
        rests.map (fun r => ch :: r)
      else
        rests.map (fun r => ch.withLabel NodeLabel.top :: r) ++
          rests.map (fun r => ch.withLabel NodeLabel.bottom :: r)

/-- Modelled from the spec: the parent decision of `label_propagate`.  The
parent becomes TOP (resp. BOTTOM) when every completion of the unlabeled
children forces the batch decision TOP (resp. BOTTOM), and stays unlabeled
otherwise. -/
def detDecide (c e : Finset String) (children : List SNode) : NodeLabel :=
  if ∀ comp ∈ completions children,
      labelDecision c e comp = NodeLabel.top then NodeLabel.top
  else if ∀ comp ∈ completions children,
      labelDecision c e comp = NodeLabel.bottom then NodeLabel.bottom
  else NodeLabel.unlabeled

/-- One incremental event: resolve the leaf at the given path from its
state, then walk back up the path; at each ancestor whose updated child
just became labeled and which is itself unlabeled, apply `detDecide` and
continue upward on success, stop otherwise.  Returns the updated tree and
whether the root of this subtree became labeled. -/
def applyEvent (c e : Finset String) : SNode → List ℕ → SNode × Bool
  | SNode.mk st inc lab cs, [] =>
      if lab = NodeLabel.unlabeled ∧ stateLabel st ≠ NodeLabel.unlabeled then
        (SNode.mk st inc (stateLabel st) cs, true)
      else (SNode.mk st inc lab cs, false)
  | SNode.mk st inc lab cs, i :: p =>
      match cs.get? i with
      | none => (SNode.mk st inc lab cs, false)
      | some ch =>
          let r := applyEvent c e ch p
          let cs2 := cs.set i r.1
          if r.2 = true ∧ lab = NodeLabel.unlabeled then
            let d := detDecide c e cs2
            if d = NodeLabel.unlabeled then (SNode.mk st inc lab cs2, false)
            else (SNode.mk st inc d cs2, true)
          else (SNode.mk st inc lab cs2, false)

/-- Run a list of incremental events left to right. -/
def runEvents (c e : Finset String) (t : SNode) (ps : List (List ℕ)) : SNode :=
  ps.foldl (fun t p => (applyEvent c e t p).1) t

mutual

/-- The paths from a node to its leaves (index per child edge). -/
def leafPaths : SNode → List (List ℕ)
  | SNode.mk _ _ _ [] => [[]]
  | SNode.mk _ _ _ (ch :: rest) => leafPathsAux 0 (ch :: rest)
termination_by t => sizeOf t

/-- Leaf paths of a child list, children numbered from `k`. -/
def leafPathsAux : ℕ → List SNode → List (List ℕ)
  | _, [] => []
  | k, ch :: rest =>
      (leafPaths ch).map (fun p => k :: p) ++ leafPathsAux (k + 1) rest
termination_by _ cs => sizeOf cs

end

/-- The node at the given path carries a definite label (vacuous when the
path leaves the tree). -/
def labeledAt : SNode → List ℕ → Prop
  | t, [] => t.label ≠ NodeLabel.unlabeled
  | SNode.mk _ _ _ cs, i :: p => ∀ ch, cs.get? i = some ch → labeledAt ch p

/-- Erase every label of the tree (the label-independent shape). -/
def stripLabels : SNode → SNode
  | SNode.mk st inc _ cs =>
      SNode.mk st inc NodeLabel.unlabeled
        (cs.attach.map fun x => stripLabels x.1)
termination_by t => sizeOf t
decreasing_by
  have := List.sizeOf_lt_of_mem x.2
  simp
  omega

/-- Well-formed search trees: a node is childless exactly when its state is
not UNKNOWN (expand_node gives children only to UNKNOWN nodes and marks
childless nodes DEAD). -/
def wfT : SNode → Prop
  | SNode.mk st _ _ cs =>
      (cs = [] ↔ st ≠ NodeState.unknown) ∧ ∀ ch ∈ cs, wfT ch
termination_by t => sizeOf t
decreasing_by
  have := List.sizeOf_lt_of_mem (by assumption)
  simp
  omega

/-- Every label of the tree is still unlabeled (the state before labeling
starts). -/
def allUnlabeled : SNode → Prop
  | SNode.mk _ _ lab cs =>
      lab = NodeLabel.unlabeled ∧ ∀ ch ∈ cs, allUnlabeled ch
termination_by t => sizeOf t
decreasing_by
  have := List.sizeOf_lt_of_mem (by assumption)
  simp
  omega

/-- Every label of the tree is definite. -/
def allLabeled : SNode → Prop
  | SNode.mk _ _ lab cs =>
      lab ≠ NodeLabel.unlabeled ∧ ∀ ch ∈ cs, allLabeled ch
termination_by t => sizeOf t
decreasing_by
  have := List.sizeOf_lt_of_mem (by assumption)
  simp
  omega

/-- Soundness invariant: every label already assigned agrees with the batch
label of the same node (batch labeling ignores current labels, so the batch
reference is computed from the node itself). -/
def soundT (c e : Finset String) : SNode → Prop
  | SNode.mk st inc lab cs =>
      (lab = NodeLabel.unlabeled ∨
        lab = (batchLabel c e (SNode.mk st inc lab cs)).label) ∧
      ∀ ch ∈ cs, soundT c e ch
termination_by t => sizeOf t
decreasing_by
  have := List.sizeOf_lt_of_mem (by assumption)
  simp
  omega

/-- Climbing invariant: an internal node whose children are all labeled is
itself labeled. -/
def climbOk : SNode → Prop
  | SNode.mk _ _ lab cs =>
      (cs ≠ [] → (∀ ch ∈ cs, ch.label ≠ NodeLabel.unlabeled) →
        lab ≠ NodeLabel.unlabeled) ∧
      ∀ ch ∈ cs, climbOk ch
termination_by t => sizeOf t
decreasing_by
  have := List.sizeOf_lt_of_mem (by assumption)
  simp
  omega

end Mtlsyn

namespace Mtlsyn

/-- Structural induction over `SNode` through the nested list of
children. -/
theorem SNode.inductionOn {motive : SNode → Prop}
    (h : ∀ st inc lab cs, (∀ ch ∈ cs, motive ch) →
      motive (SNode.mk st inc lab cs)) :
    ∀ t, motive t
  | SNode.mk st inc lab cs =>
      h st inc lab cs (fun ch _ => SNode.inductionOn h ch)
termination_by t => sizeOf t
decreasing_by
  have := List.sizeOf_lt_of_mem (by assumption)
  simp
  omega

/-- Unfolding `stripLabels`. -/
theorem stripLabels_eq (st : NodeState) (inc : List (ℕ × String))
    (lab : NodeLabel) (cs : List SNode) :
    stripLabels (SNode.mk st inc lab cs) =
      SNode.mk st inc NodeLabel.unlabeled (cs.map stripLabels) := by
  rw [stripLabels]
  simp [List.attach_map_coe]

/-- Unfolding `wfT`. -/
theorem wfT_eq (st : NodeState) (inc : List (ℕ × String)) (lab : NodeLabel)
    (cs : List SNode) :
    wfT (SNode.mk st inc lab cs) ↔
      ((cs = [] ↔ st ≠ NodeState.unknown) ∧ ∀ ch ∈ cs, wfT ch) := by
  rw [wfT]

/-- Unfolding `allUnlabeled`. -/
theorem allUnlabeled_eq (st : NodeState) (inc : List (ℕ × String))
    (lab : NodeLabel) (cs : List SNode) :
    allUnlabeled (SNode.mk st inc lab cs) ↔
      (lab = NodeLabel.unlabeled ∧ ∀ ch ∈ cs, allUnlabeled ch) := by
  rw [allUnlabeled]

/-- Unfolding `allLabeled`. -/
theorem allLabeled_eq (st : NodeState) (inc : List (ℕ × String))
    (lab : NodeLabel) (cs : List SNode) :
    allLabeled (SNode.mk st inc lab cs) ↔
      (lab ≠ NodeLabel.unlabeled ∧ ∀ ch ∈ cs, allLabeled ch) := by
  rw [allLabeled]

/-- Unfolding `soundT`. -/
theorem soundT_eq (c e : Finset String) (st : NodeState)
    (inc : List (ℕ × String)) (lab : NodeLabel) (cs : List SNode) :
    soundT c e (SNode.mk st inc lab cs) ↔
      ((lab = NodeLabel.unlabeled ∨
          lab = (batchLabel c e (SNode.mk st inc lab cs)).label) ∧
        ∀ ch ∈ cs, soundT c e ch) := by
  rw [soundT]

/-- Unfolding `climbOk`. -/
theorem climbOk_eq (st : NodeState) (inc : List (ℕ × String))
    (lab : NodeLabel) (cs : List SNode) :
    climbOk (SNode.mk st inc lab cs) ↔
      ((cs ≠ [] → (∀ ch ∈ cs, ch.label ≠ NodeLabel.unlabeled) →
          lab ≠ NodeLabel.unlabeled) ∧
        ∀ ch ∈ cs, climbOk ch) := by
  rw [climbOk]

/-- Unfolding `leafPaths` on a childless node. -/
theorem leafPaths_nil (st : NodeState) (inc : List (ℕ × String))
    (lab : NodeLabel) :
    leafPaths (SNode.mk st inc lab []) = [[]] := by
  rw [leafPaths]

/-- Unfolding `leafPaths` on an internal node. -/
theorem leafPaths_cons (st : NodeState) (inc : List (ℕ × String))
    (lab : NodeLabel) (ch : SNode) (rest : List SNode) :
    leafPaths (SNode.mk st inc lab (ch :: rest)) =
      leafPathsAux 0 (ch :: rest) := by
  rw [leafPaths]

/-- Unfolding `leafPathsAux` on the empty list. -/
theorem leafPathsAux_nil (k : ℕ) : leafPathsAux k [] = [] := by
  rw [leafPathsAux]

/-- Unfolding `leafPathsAux` on a cons cell. -/
theorem leafPathsAux_cons (k : ℕ) (ch : SNode) (rest : List SNode) :
    leafPathsAux k (ch :: rest) =
      (leafPaths ch).map (fun p => k :: p) ++ leafPathsAux (k + 1) rest := by
  rw [leafPathsAux]

end Mtlsyn

namespace Mtlsyn

/-- The label-and-incoming projection of a node; the labeling decision
depends on children only through it. -/
def labProj (t : SNode) : NodeLabel × List (ℕ × String) := (t.label, t.incoming)

theorem goodControllerSteps_congr (c : Finset String) (a b : SNode)
    (h : labProj a = labProj b) :
    goodControllerSteps c a = goodControllerSteps c b := by
  have h1 : a.label = b.label := congrArg Prod.fst h
  have h2 : a.incoming = b.incoming := congrArg Prod.snd h
  rw [goodControllerSteps, goodControllerSteps, h1, h2]

theorem badEnvironmentSteps_congr (e : Finset String) (a b : SNode)
    (h : labProj a = labProj b) :
    badEnvironmentSteps e a = badEnvironmentSteps e b := by
  have h1 : a.label = b.label := congrArg Prod.fst h
  have h2 : a.incoming = b.incoming := congrArg Prod.snd h
  rw [badEnvironmentSteps, badEnvironmentSteps, h1, h2]

/-- Mapping a projection-respecting function along projection-equal lists
gives equal results. -/
theorem map_congr_of_proj {α : Type} (f : SNode → α)
    (hf : ∀ a b, labProj a = labProj b → f a = f b) :
    ∀ (cs cs2 : List SNode), cs.map labProj = cs2.map labProj →
      cs.map f = cs2.map f := by
  intro cs
  induction cs with
  | nil =>
      intro cs2 h
      cases cs2 with
      | nil => rfl
      | cons b rest2 => simp at h
  | cons a rest ih =>
      intro cs2 h
      cases cs2 with
      | nil => simp at h
      | cons b rest2 =>
          simp only [List.map_cons, List.cons.injEq] at h ⊢
          exact ⟨hf a b h.1, ih rest2 h.2⟩

theorem foundBadEnv_iff_proj (e : Finset String) (cs : List SNode) :
    foundBadEnv e cs ↔
      ∃ pr ∈ cs.map labProj,
        pr.1 = NodeLabel.bottom ∧ ∃ p ∈ pr.2, p.2 ∈ e := by
  rw [foundBadEnv]
  simp [labProj]

theorem labelDecision_congr (c e : Finset String) (cs cs2 : List SNode)
    (h : cs.map labProj = cs2.map labProj) :
    labelDecision c e cs = labelDecision c e cs2 := by
  have hbad : foundBadEnv e cs ↔ foundBadEnv e cs2 := by
    rw [foundBadEnv_iff_proj, foundBadEnv_iff_proj, h]
  have hg : firstGoodControllerStep c cs = firstGoodControllerStep c cs2 := by
    rw [firstGoodControllerStep, firstGoodControllerStep,
      map_congr_of_proj (goodControllerSteps c)
        (goodControllerSteps_congr c) cs cs2 h]
  have hb : firstBadEnvironmentStep e cs = firstBadEnvironmentStep e cs2 := by
    rw [firstBadEnvironmentStep, firstBadEnvironmentStep,
      map_congr_of_proj (badEnvironmentSteps e)
        (badEnvironmentSteps_congr e) cs cs2 h]
  rw [labelDecision, labelDecision, hg, hb]
  simp only [propext hbad]

/-- The decision of `labelDecision` is always definite. -/
theorem labelDecision_definite (c e : Finset String) (cs : List SNode) :
    labelDecision c e cs = NodeLabel.top ∨
      labelDecision c e cs = NodeLabel.bottom := by
  rw [labelDecision]
  by_cases h : ¬foundBadEnv e cs ∨
      firstGoodControllerStep c cs < firstBadEnvironmentStep e cs
  · left
    rw [if_pos h]
  · right
    rw [if_neg h]

/-- The root label of a batch-labeled tree is definite. -/
theorem batchLabel_label_definite (c e : Finset String) (t : SNode) :
    (batchLabel c e t).label = NodeLabel.top ∨
      (batchLabel c e t).label = NodeLabel.bottom := by
  cases t with
  | mk st inc lab cs =>
      cases st with
      | good => left; rw [batchLabel]; rfl
      | dead => left; rw [batchLabel]; rfl
      | bad => right; rw [batchLabel]; rfl
      | unknown =>
          rw [batchLabel_unknown]
          exact labelDecision_definite c e (cs.map (batchLabel c e))

/-- Batch labeling preserves the incoming actions. -/
theorem batchLabel_incoming (c e : Finset String) (st : NodeState)
    (inc : List (ℕ × String)) (lab : NodeLabel) (cs : List SNode) :
    (batchLabel c e (SNode.mk st inc lab cs)).incoming = inc := by
  cases st with
  | good => rw [batchLabel]; rfl
  | dead => rw [batchLabel]; rfl
  | bad => rw [batchLabel]; rfl
  | unknown => rw [batchLabel_unknown]; rfl

end Mtlsyn

namespace Mtlsyn

/-- Mapping a shape-respecting function along shape-equal lists gives equal
results; the hypothesis is only required on the first list's members. -/
theorem map_congr_of_strip {α : Type} (f : SNode → α) :
    ∀ (cs cs2 : List SNode),
      (∀ a ∈ cs, ∀ b, stripLabels a = stripLabels b → f a = f b) →
      cs.map stripLabels = cs2.map stripLabels → cs.map f = cs2.map f := by
  intro cs
  induction cs with
  | nil =>
      intro cs2 _ h
      cases cs2 with
      | nil => rfl
      | cons b rest2 => simp at h
  | cons a rest ih =>
      intro cs2 hmem h
      cases cs2 with
      | nil => simp at h
      | cons b rest2 =>
          simp only [List.map_cons, List.cons.injEq] at h ⊢
          refine ⟨hmem a (List.mem_cons_self a rest) b h.1, ?_⟩
          exact ih rest2 (fun x hx => hmem x (List.mem_cons_of_mem a hx)) h.2

/-- A bounded-forall transported along shape-equal lists. -/
theorem ball_congr_of_strip (P : SNode → Prop) :
    ∀ (cs cs2 : List SNode),
      (∀ a ∈ cs, ∀ b, stripLabels a = stripLabels b → (P a ↔ P b)) →
      cs.map stripLabels = cs2.map stripLabels →
      ((∀ ch ∈ cs, P ch) ↔ (∀ ch ∈ cs2, P ch)) := by
  intro cs
  induction cs with
  | nil =>
      intro cs2 _ h
      cases cs2 with
      | nil => simp
      | cons b rest2 => simp at h
  | cons a rest ih =>
      intro cs2 hmem h
      cases cs2 with
      | nil => simp at h
      | cons b rest2 =>
          simp only [List.map_cons, List.cons.injEq] at h
          have h1 := hmem a (List.mem_cons_self a rest) b h.1
          have h2 := ih rest2
            (fun x hx => hmem x (List.mem_cons_of_mem a hx)) h.2
          simp only [List.mem_cons]
          constructor
          · rintro hall x (rfl | hx)
            · exact h1.mp (hall a (Or.inl rfl))
            · exact (h2.mp fun y hy => hall y (Or.inr hy)) x hx
          · rintro hall x (rfl | hx)
            · exact h1.mpr (hall b (Or.inl rfl))
            · exact (h2.mpr fun y hy => hall y (Or.inr hy)) x hx

/-- Batch labeling of well-formed trees depends only on the label-free
shape. -/
theorem batchLabel_congr (c e : Finset String) :
    ∀ t, wfT t → ∀ t2, stripLabels t = stripLabels t2 →
      batchLabel c e t = batchLabel c e t2 := by
  intro t
  induction t using SNode.inductionOn with
  | h st inc lab cs ih =>
      intro hwf t2 hstrip
      cases t2 with
      | mk st2 inc2 lab2 cs2 =>
          rw [stripLabels_eq, stripLabels_eq, SNode.mk.injEq] at hstrip
          obtain ⟨hst, hinc, -, hcs⟩ := hstrip
          subst hst
          subst hinc
          rw [wfT_eq] at hwf
          cases st with
          | unknown =>
              rw [batchLabel_unknown, batchLabel_unknown]
              rw [map_congr_of_strip (batchLabel c e) cs cs2
                (fun a ha b hb => ih a ha (hwf.2 a ha) b hb) hcs]
          | good =>
              have hnil : cs = [] := hwf.1.mpr (by simp)
              subst hnil
              cases cs2 with
              | nil => rw [batchLabel, batchLabel]
              | cons x xs => simp at hcs
          | dead =>
              have hnil : cs = [] := hwf.1.mpr (by simp)
              subst hnil
              cases cs2 with
              | nil => rw [batchLabel, batchLabel]
              | cons x xs => simp at hcs
          | bad =>
              have hnil : cs = [] := hwf.1.mpr (by simp)
              subst hnil
              cases cs2 with
              | nil => rw [batchLabel, batchLabel]
              | cons x xs => simp at hcs

/-- `leafPathsAux` depends only on the label-free shape. -/
theorem leafPathsAux_congr :
    ∀ (cs cs2 : List SNode) (k : ℕ),
      (∀ a ∈ cs, ∀ b, stripLabels a = stripLabels b →
        leafPaths a = leafPaths b) →
      cs.map stripLabels = cs2.map stripLabels →
      leafPathsAux k cs = leafPathsAux k cs2 := by
  intro cs
  induction cs with
  | nil =>
      intro cs2 k _ h
      cases cs2 with
      | nil => rfl
      | cons b rest2 => simp at h
  | cons a rest ih =>
      intro cs2 k hmem h
      cases cs2 with
      | nil => simp at h
      | cons b rest2 =>
          simp only [List.map_cons, List.cons.injEq] at h
          rw [leafPathsAux_cons, leafPathsAux_cons,
            hmem a (List.mem_cons_self a rest) b h.1,
            ih rest2 (k + 1) (fun x hx => hmem x (List.mem_cons_of_mem a hx))
              h.2]

/-- `leafPaths` depends only on the label-free shape. -/
theorem leafPaths_congr :
    ∀ t t2, stripLabels t = stripLabels t2 → leafPaths t = leafPaths t2 := by
  intro t
  induction t using SNode.inductionOn with
  | h st inc lab cs ih =>
      intro t2 hstrip
      cases t2 with
      | mk st2 inc2 lab2 cs2 =>
          rw [stripLabels_eq, stripLabels_eq, SNode.mk.injEq] at hstrip
          obtain ⟨hst, hinc, -, hcs⟩ := hstrip
          cases cs with
          | nil =>
              cases cs2 with
              | nil => rw [leafPaths_nil, leafPaths_nil]
              | cons x xs => simp at hcs
          | cons y ys =>
              cases cs2 with
              | nil => simp at hcs
              | cons x xs =>
                  rw [leafPaths_cons, leafPaths_cons]
                  exact leafPathsAux_congr (y :: ys) (x :: xs) 0
                    (fun a ha b hb => ih a ha b hb) hcs

/-- Well-formedness depends only on the label-free shape. -/
theorem wfT_congr :
    ∀ t t2, stripLabels t = stripLabels t2 → (wfT t ↔ wfT t2) := by
  intro t
  induction t using SNode.inductionOn with
  | h st inc lab cs ih =>
      intro t2 hstrip
      cases t2 with
      | mk st2 inc2 lab2 cs2 =>
          rw [stripLabels_eq, stripLabels_eq, SNode.mk.injEq] at hstrip
          obtain ⟨hst, hinc, -, hcs⟩ := hstrip
          subst hst
          rw [wfT_eq, wfT_eq]
          have hlen : cs.length = cs2.length := by
            have := congrArg List.length hcs
            simpa using this
          have hnil : cs = [] ↔ cs2 = [] := by
            constructor
            · intro h
              subst h
              cases cs2 with
              | nil => rfl
              | cons x xs => simp at hlen
            · intro h
              subst h
              cases cs with
              | nil => rfl
              | cons x xs => simp at hlen
          constructor
          · rintro ⟨h1, h2⟩
            refine ⟨hnil.symm.trans h1, ?_⟩
            exact (ball_congr_of_strip wfT cs cs2
              (fun a ha b hb => ih a ha b hb) hcs).mp h2
          · rintro ⟨h1, h2⟩
            refine ⟨hnil.trans h1, ?_⟩
            exact (ball_congr_of_strip wfT cs cs2
              (fun a ha b hb => ih a ha b hb) hcs).mpr h2

end Mtlsyn

namespace Mtlsyn

/-- The label after `withLabel`. -/
theorem withLabel_label (t : SNode) (l : NodeLabel) :
    (t.withLabel l).label = l := by
  cases t
  rfl

/-- `withLabel` keeps the incoming actions. -/
theorem withLabel_incoming (t : SNode) (l : NodeLabel) :
    (t.withLabel l).incoming = t.incoming := by
  cases t
  rfl

/-- Batch labeling preserves the incoming actions (node form). -/
theorem batchLabel_incoming2 (c e : Finset String) (t : SNode) :
    (batchLabel c e t).incoming = t.incoming := by
  cases t with
  | mk st inc lab cs => rw [batchLabel_incoming]; rfl

/-- The root-label clause of `soundT`. -/
theorem soundT_root (c e : Finset String) (t : SNode) (h : soundT c e t) :
    t.label = NodeLabel.unlabeled ∨
      t.label = (batchLabel c e t).label := by
  cases t with
  | mk st inc lab cs =>
      rw [soundT_eq] at h
      exact h.1

/-- The children clause of `soundT`. -/
theorem soundT_children (c e : Finset String) (t : SNode)
    (h : soundT c e t) : ∀ ch ∈ t.children, soundT c e ch := by
  cases t with
  | mk st inc lab cs =>
      rw [soundT_eq] at h
      exact h.2

/-- When every child is already definitely labeled there is exactly one
completion. -/
theorem completions_all_labeled :
    ∀ (cs : List SNode),
      (∀ ch ∈ cs, ch.label = NodeLabel.top ∨ ch.label = NodeLabel.bottom) →
      completions cs = [cs] := by
  intro cs
  induction cs with
  | nil => intro _; rfl
  | cons ch rest ih =>
      intro h
      rw [completions]
      rw [if_pos (h ch (List.mem_cons_self ch rest))]
      rw [ih (fun x hx => h x (List.mem_cons_of_mem ch hx))]
      rfl

/-- Among the completions of a sound child list there is one whose
projections agree with the batch-labeled children. -/
theorem completions_batch_mem (c e : Finset String) :
    ∀ (cs : List SNode),
      (∀ ch ∈ cs, ch.label = NodeLabel.unlabeled ∨
        ch.label = (batchLabel c e ch).label) →
      ∃ comp ∈ completions cs,
        comp.map labProj = (cs.map (batchLabel c e)).map labProj := by
  intro cs
  induction cs with
  | nil => exact fun _ => ⟨[], by rw [completions]; simp⟩
  | cons ch rest ih =>
      intro h
      obtain ⟨comp, hmem, hproj⟩ :=
        ih (fun x hx => h x (List.mem_cons_of_mem ch hx))
      rcases h ch (List.mem_cons_self ch rest) with hu | hl
      · have hguard : ¬(ch.label = NodeLabel.top ∨
            ch.label = NodeLabel.bottom) := by
          rw [hu]
          rintro (hx | hx)
          · cases hx
          · cases hx
        refine ⟨ch.withLabel ((batchLabel c e ch).label) :: comp, ?_, ?_⟩
        · rw [completions, if_neg hguard]
          rcases batchLabel_label_definite c e ch with hb | hb
          · rw [hb]
            exact List.mem_append_left _ (List.mem_map_of_mem _ hmem)
          · rw [hb]
            exact List.mem_append_right _ (List.mem_map_of_mem _ hmem)
        · simp only [List.map_cons, hproj, List.cons.injEq]
          refine ⟨?_, trivial⟩
          rw [labProj, labProj, withLabel_label, withLabel_incoming,
            batchLabel_incoming2]
      · have hguard : ch.label = NodeLabel.top ∨
            ch.label = NodeLabel.bottom := by
          rw [hl]
          exact batchLabel_label_definite c e ch
        refine ⟨ch :: comp, ?_, ?_⟩
        · rw [completions, if_pos hguard]
          exact List.mem_map_of_mem _ hmem
        · simp only [List.map_cons, hproj, List.cons.injEq]
          refine ⟨?_, trivial⟩
          rw [labProj, labProj, hl, batchLabel_incoming2]

/-- A definite `detDecide` result is the decision of every completion. -/
theorem detDecide_definite_imp (c e : Finset String) (cs : List SNode)
    (d : NodeLabel) (hd : detDecide c e cs = d)
    (hne : d ≠ NodeLabel.unlabeled) :
    ∀ comp ∈ completions cs, labelDecision c e comp = d := by
  rw [detDecide] at hd
  by_cases h1 : ∀ comp ∈ completions cs,
      labelDecision c e comp = NodeLabel.top
  · rw [if_pos h1] at hd
    subst hd
    exact h1
  · rw [if_neg h1] at hd
    by_cases h2 : ∀ comp ∈ completions cs,
        labelDecision c e comp = NodeLabel.bottom
    · rw [if_pos h2] at hd
      subst hd
      exact h2
    · rw [if_neg h2] at hd
      exact absurd hd.symm hne

/-- A definite `detDecide` result over sound children equals the batch
decision over the batch-labeled children. -/
theorem detDecide_batch (c e : Finset String) (cs : List SNode)
    (d : NodeLabel)
    (hsound : ∀ ch ∈ cs, ch.label = NodeLabel.unlabeled ∨
      ch.label = (batchLabel c e ch).label)
    (hd : detDecide c e cs = d) (hne : d ≠ NodeLabel.unlabeled) :
    labelDecision c e (cs.map (batchLabel c e)) = d := by
  obtain ⟨comp, hmem, hproj⟩ := completions_batch_mem c e cs hsound
  have := labelDecision_congr c e comp (cs.map (batchLabel c e)) hproj
  rw [← this]
  exact detDecide_definite_imp c e cs d hd hne comp hmem

/-- With all children definitely labeled, `detDecide` is exactly the batch
decision on them. -/
theorem detDecide_all_labeled (c e : Finset String) (cs : List SNode)
    (hlab : ∀ ch ∈ cs, ch.label = NodeLabel.top ∨
      ch.label = NodeLabel.bottom) :
    detDecide c e cs = labelDecision c e cs := by
  rw [detDecide, completions_all_labeled cs hlab]
  rcases labelDecision_definite c e cs with h | h
  · rw [if_pos, h]
    intro comp hc
    rw [List.mem_singleton] at hc
    subst hc
    exact h
  · rw [if_neg, if_pos, h]
    · intro comp hc
      rw [List.mem_singleton] at hc
      subst hc
      exact h
    · intro hall
      have := hall cs (List.mem_singleton_self cs)
      rw [h] at this
      cases this

end Mtlsyn

namespace Mtlsyn

/-! ### List helpers for indexed updates -/

theorem list_get_mem {α : Type} :
    ∀ (l : List α) (i : ℕ) (a : α), l.get? i = some a → a ∈ l := by
  intro l
  induction l with
  | nil => intro i a h; cases h
  | cons x xs ih =>
      intro i a h
      cases i with
      | zero =>
          cases h
          exact List.mem_cons_self x xs
      | succ j => exact List.mem_cons_of_mem x (ih j a h)

theorem list_get_lt {α : Type} :
    ∀ (l : List α) (i : ℕ) (a : α), l.get? i = some a → i < l.length := by
  intro l
  induction l with
  | nil => intro i a h; cases h
  | cons x xs ih =>
      intro i a h
      cases i with
      | zero => simp
      | succ j =>
          have := ih j a h
          simp
          omega

theorem list_get_set_self {α : Type} :
    ∀ (l : List α) (i : ℕ) (a : α), i < l.length →
      (l.set i a).get? i = some a := by
  intro l
  induction l with
  | nil => intro i a h; simp at h
  | cons x xs ih =>
      intro i a h
      cases i with
      | zero => rfl
      | succ j =>
          simp only [List.set_cons_succ, List.get?_cons_succ]
          exact ih j a (by simp at h; omega)

theorem list_get_set_ne {α : Type} :
    ∀ (l : List α) (i j : ℕ) (a : α), i ≠ j →
      (l.set i a).get? j = l.get? j := by
  intro l
  induction l with
  | nil => intro i j a _; simp
  | cons x xs ih =>
      intro i j a hij
      cases i with
      | zero =>
          cases j with
          | zero => exact absurd rfl hij
          | succ j2 => rfl
      | succ i2 =>
          cases j with
          | zero => rfl
          | succ j2 =>
              simp only [List.set_cons_succ, List.get?_cons_succ]
              exact ih i2 j2 a (fun hx => hij (by rw [hx]))

theorem list_set_self {α : Type} :
    ∀ (l : List α) (i : ℕ) (a : α), l.get? i = some a → l.set i a = l := by
  intro l
  induction l with
  | nil => intro i a h; cases h
  | cons x xs ih =>
      intro i a h
      cases i with
      | zero =>
          cases h
          rfl
      | succ j =>
          simp only [List.set_cons_succ]
          rw [ih j a h]

theorem list_mem_set {α : Type} :
    ∀ (l : List α) (i : ℕ) (a x : α), x ∈ l.set i a → x = a ∨ x ∈ l := by
  intro l
  induction l with
  | nil => intro i a x h; simp at h
  | cons y ys ih =>
      intro i a x h
      cases i with
      | zero =>
          rcases List.mem_cons.mp h with h1 | h1
          · exact Or.inl h1
          · exact Or.inr (List.mem_cons_of_mem y h1)
      | succ j =>
          rcases List.mem_cons.mp h with h1 | h1
          · exact Or.inr (h1 ▸ List.mem_cons_self y ys)
          · rcases ih j a x h1 with h2 | h2
            · exact Or.inl h2
            · exact Or.inr (List.mem_cons_of_mem y h2)

theorem list_map_set {α β : Type} (f : α → β) :
    ∀ (l : List α) (i : ℕ) (a : α),
      (l.set i a).map f = (l.map f).set i (f a) := by
  intro l
  induction l with
  | nil => intro i a; rfl
  | cons x xs ih =>
      intro i a
      cases i with
      | zero => rfl
      | succ j =>
          simp only [List.set_cons_succ, List.map_cons]
          rw [ih j a]

/-! ### Leaf path membership -/

theorem mem_leafPathsAux :
    ∀ (cs : List SNode) (k : ℕ) (q : List ℕ),
      q ∈ leafPathsAux k cs →
      ∃ j ch p2, cs.get? j = some ch ∧ q = (k + j) :: p2 ∧
        p2 ∈ leafPaths ch := by
  intro cs
  induction cs with
  | nil =>
      intro k q h
      rw [leafPathsAux_nil] at h
      cases h
  | cons ch rest ih =>
      intro k q h
      rw [leafPathsAux_cons] at h
      rcases List.mem_append.mp h with h1 | h1
      · obtain ⟨p2, hp2, rfl⟩ := List.mem_map.mp h1
        exact ⟨0, ch, p2, rfl, by simp, hp2⟩
      · obtain ⟨j, ch2, p2, hget, heq, hp2⟩ := ih (k + 1) q h1
        refine ⟨j + 1, ch2, p2, hget, ?_, hp2⟩
        rw [heq]
        congr 1
        omega

theorem mem_leafPathsAux_intro :
    ∀ (cs : List SNode) (k j : ℕ) (ch : SNode) (p2 : List ℕ),
      cs.get? j = some ch → p2 ∈ leafPaths ch →
      ((k + j) :: p2) ∈ leafPathsAux k cs := by
  intro cs
  induction cs with
  | nil => intro k j ch p2 h _; cases h
  | cons x rest ih =>
      intro k j ch p2 hget hp2
      rw [leafPathsAux_cons]
      cases j with
      | zero =>
          cases hget
          refine List.mem_append_left _ ?_
          simpa using List.mem_map_of_mem (fun p => k :: p) hp2
      | succ j2 =>
          refine List.mem_append_right _ ?_
          have := ih (k + 1) j2 ch p2 hget hp2
          have harith : k + 1 + j2 = k + (j2 + 1) := by omega
          rwa [harith] at this

/-- A nil path is a leaf path only at a childless node. -/
theorem mem_leafPaths_nil_path (st : NodeState) (inc : List (ℕ × String))
    (lab : NodeLabel) (cs : List SNode)
    (h : [] ∈ leafPaths (SNode.mk st inc lab cs)) : cs = [] := by
  cases cs with
  | nil => rfl
  | cons ch rest =>
      rw [leafPaths_cons] at h
      obtain ⟨j, ch2, p2, _, heq, _⟩ := mem_leafPathsAux (ch :: rest) 0 [] h
      cases heq

/-- Decomposing a non-trivial leaf path. -/
theorem mem_leafPaths_cons_path (st : NodeState) (inc : List (ℕ × String))
    (lab : NodeLabel) (cs : List SNode) (i : ℕ) (p2 : List ℕ)
    (h : (i :: p2) ∈ leafPaths (SNode.mk st inc lab cs)) :
    ∃ ch, cs.get? i = some ch ∧ p2 ∈ leafPaths ch := by
  cases cs with
  | nil =>
      rw [leafPaths_nil] at h
      simp at h
  | cons ch rest =>
      rw [leafPaths_cons] at h
      obtain ⟨j, ch2, p3, hget, heq, hp3⟩ :=
        mem_leafPathsAux (ch :: rest) 0 (i :: p2) h
      rw [List.cons.injEq] at heq
      obtain ⟨hi, hp⟩ := heq
      subst hp
      refine ⟨ch2, ?_, hp3⟩
      rw [hi]
      simpa using hget

/-- Composing a leaf path. -/
theorem mem_leafPaths_intro (st : NodeState) (inc : List (ℕ × String))
    (lab : NodeLabel) (cs : List SNode) (j : ℕ) (ch : SNode) (p2 : List ℕ)
    (hget : cs.get? j = some ch) (hp2 : p2 ∈ leafPaths ch) :
    (j :: p2) ∈ leafPaths (SNode.mk st inc lab cs) := by
  cases cs with
  | nil => cases hget
  | cons x rest =>
      rw [leafPaths_cons]
      have := mem_leafPathsAux_intro (x :: rest) 0 j ch p2 hget hp2
      simpa using this

/-! ### State labels -/

/-- A non-UNKNOWN state resolves to a definite label. -/
theorem stateLabel_ne_unlabeled (st : NodeState)
    (h : st ≠ NodeState.unknown) : stateLabel st ≠ NodeLabel.unlabeled := by
  cases st with
  | unknown => exact absurd rfl h
  | good => intro hx; cases hx
  | dead => intro hx; cases hx
  | bad => intro hx; cases hx

/-- On a non-UNKNOWN node, the state label is the batch label. -/
theorem stateLabel_eq_batch (c e : Finset String) (st : NodeState)
    (inc : List (ℕ × String)) (lab : NodeLabel) (cs : List SNode)
    (h : st ≠ NodeState.unknown) :
    stateLabel st = (batchLabel c e (SNode.mk st inc lab cs)).label := by
  cases st with
  | unknown => exact absurd rfl h
  | good => rw [batchLabel]; rfl
  | dead => rw [batchLabel]; rfl
  | bad => rw [batchLabel]; rfl

end Mtlsyn

namespace Mtlsyn

theorem list_get_map {α β : Type} (f : α → β) :
    ∀ (l : List α) (i : ℕ) (a : α), l.get? i = some a →
      (l.map f).get? i = some (f a) := by
  intro l
  induction l with
  | nil => intro i a h; cases h
  | cons x xs ih =>
      intro i a h
      cases i with
      | zero =>
          cases h
          rfl
      | succ j => exact ih j a h

theorem list_set_set {α : Type} :
    ∀ (l : List α) (i : ℕ) (a b : α), (l.set i a).set i b = l.set i b := by
  intro l
  induction l with
  | nil => intro i a b; rfl
  | cons x xs ih =>
      intro i a b
      cases i with
      | zero => rfl
      | succ j =>
          simp only [List.set_cons_succ]
          rw [ih j a b]

/-- Unfolding `applyEvent` on the empty path. -/
theorem applyEvent_nil_eq (c e : Finset String) (st : NodeState)
    (inc : List (ℕ × String)) (lab : NodeLabel) (cs : List SNode) :
    applyEvent c e (SNode.mk st inc lab cs) [] =
      if lab = NodeLabel.unlabeled ∧ stateLabel st ≠ NodeLabel.unlabeled then
        (SNode.mk st inc (stateLabel st) cs, true)
      else (SNode.mk st inc lab cs, false) := by
  rw [applyEvent]

/-- Unfolding `applyEvent` on a path whose head index is out of range. -/
theorem applyEvent_cons_none (c e : Finset String) (st : NodeState)
    (inc : List (ℕ × String)) (lab : NodeLabel) (cs : List SNode) (i : ℕ)
    (p : List ℕ) (h : cs.get? i = none) :
    applyEvent c e (SNode.mk st inc lab cs) (i :: p) =
      (SNode.mk st inc lab cs, false) := by
  rw [applyEvent, h]

/-- Unfolding `applyEvent` on a path into child `i`. -/
theorem applyEvent_cons_some (c e : Finset String) (st : NodeState)
    (inc : List (ℕ × String)) (lab : NodeLabel) (cs : List SNode) (i : ℕ)
    (p : List ℕ) (ch : SNode) (h : cs.get? i = some ch) :
    applyEvent c e (SNode.mk st inc lab cs) (i :: p) =
      (if (applyEvent c e ch p).2 = true ∧ lab = NodeLabel.unlabeled then
        (if detDecide c e (cs.set i (applyEvent c e ch p).1) =
            NodeLabel.unlabeled then
          (SNode.mk st inc lab (cs.set i (applyEvent c e ch p).1), false)
        else
          (SNode.mk st inc
            (detDecide c e (cs.set i (applyEvent c e ch p).1))
            (cs.set i (applyEvent c e ch p).1), true))
      else (SNode.mk st inc lab (cs.set i (applyEvent c e ch p).1), false)) := by
  rw [applyEvent, h]

end Mtlsyn

namespace Mtlsyn

/-- One incremental event preserves the shape, soundness and climbing
invariants; its change flag reflects the root label; labels never revert;
and the resolved leaf ends up labeled. -/
theorem applyEvent_preserves (c e : Finset String) :
    ∀ (p : List ℕ) (t : SNode), wfT t → soundT c e t → climbOk t →
      stripLabels (applyEvent c e t p).1 = stripLabels t ∧
      soundT c e (applyEvent c e t p).1 ∧
      climbOk (applyEvent c e t p).1 ∧
      ((applyEvent c e t p).2 = true → t.label = NodeLabel.unlabeled ∧
        (applyEvent c e t p).1.label ≠ NodeLabel.unlabeled) ∧
      ((applyEvent c e t p).2 = false →
        (applyEvent c e t p).1.label = t.label) ∧
      (∀ q, labeledAt t q → labeledAt (applyEvent c e t p).1 q) ∧
      (p ∈ leafPaths t → labeledAt (applyEvent c e t p).1 p) := by
  intro p
  induction p with
  | nil =>
      intro t hwf hsound hclimb
      cases t with
      | mk st inc lab cs =>
          rw [applyEvent_nil_eq]
          by_cases hev : lab = NodeLabel.unlabeled ∧
              stateLabel st ≠ NodeLabel.unlabeled
          · rw [if_pos hev]
            have hst : st ≠ NodeState.unknown := by
              intro hx
              subst hx
              exact hev.2 rfl
            rw [soundT_eq] at hsound
            rw [climbOk_eq] at hclimb
            refine ⟨?_, ?_, ?_, ?_, ?_, ?_, ?_⟩
            · rw [stripLabels_eq, stripLabels_eq]
            · rw [soundT_eq]
              exact ⟨Or.inr (stateLabel_eq_batch c e st inc (stateLabel st)
                cs hst), hsound.2⟩
            · rw [climbOk_eq]
              exact ⟨fun _ _ => hev.2, hclimb.2⟩
            · intro _
              exact ⟨hev.1, hev.2⟩
            · intro hfalse
              simp at hfalse
            · intro q hq
              cases q with
              | nil => exact hev.2
              | cons j q2 => exact hq
            · intro _
              exact hev.2
          · rw [if_neg hev]
            refine ⟨rfl, hsound, hclimb, ?_, ?_, ?_, ?_⟩
            · intro htrue
              simp at htrue
            · intro _
              rfl
            · intro q hq
              exact hq
            · intro hmem
              have hcs : cs = [] := mem_leafPaths_nil_path st inc lab cs hmem
              subst hcs
              rw [wfT_eq] at hwf
              have hst : st ≠ NodeState.unknown := hwf.1.mp rfl
              have hsl := stateLabel_ne_unlabeled st hst
              intro hlab
              exact hev ⟨hlab, hsl⟩
  | cons i p ih =>
      intro t hwf hsound hclimb
      cases t with
      | mk st inc lab cs =>
          cases hget : cs.get? i with
          | none =>
              rw [applyEvent_cons_none c e st inc lab cs i p hget]
              refine ⟨rfl, hsound, hclimb, ?_, ?_, ?_, ?_⟩
              · intro htrue
                simp at htrue
              · intro _
                rfl
              · intro q hq
                exact hq
              · intro hmem
                obtain ⟨ch, hch, -⟩ :=
                  mem_leafPaths_cons_path st inc lab cs i p hmem
                rw [hget] at hch
                cases hch
          | some ch =>
              rw [wfT_eq] at hwf
              rw [soundT_eq] at hsound
              rw [climbOk_eq] at hclimb
              have hchmem : ch ∈ cs := list_get_mem cs i ch hget
              have hilt : i < cs.length := list_get_lt cs i ch hget
              obtain ⟨ihstrip, ihsound, ihclimb, ihtrue, ihfalse, ihmono,
                ihleaf⟩ :=
                ih ch (hwf.2 ch hchmem) (hsound.2 ch hchmem)
                  (hclimb.2 ch hchmem)
              have hwfr : wfT (applyEvent c e ch p).1 :=
                (wfT_congr (applyEvent c e ch p).1 ch ihstrip).mpr
                  (hwf.2 ch hchmem)
              have hstrip2 : (cs.set i (applyEvent c e ch p).1).map
                  stripLabels = cs.map stripLabels := by
                rw [list_map_set, ihstrip,
                  list_set_self (cs.map stripLabels) i (stripLabels ch)
                    (list_get_map stripLabels cs i ch hget)]
              have hmemcs2 : ∀ x ∈ cs.set i (applyEvent c e ch p).1,
                  x = (applyEvent c e ch p).1 ∨ x ∈ cs :=
                fun x hx => list_mem_set cs i (applyEvent c e ch p).1 x hx
              have hsound2 : ∀ x ∈ cs.set i (applyEvent c e ch p).1,
                  soundT c e x := by
                intro x hx
                rcases hmemcs2 x hx with rfl | hx2
                · exact ihsound
                · exact hsound.2 x hx2
              have hsoundroots : ∀ x ∈ cs.set i (applyEvent c e ch p).1,
                  x.label = NodeLabel.unlabeled ∨
                    x.label = (batchLabel c e x).label :=
                fun x hx => soundT_root c e x (hsound2 x hx)
              have hclimb2 : ∀ x ∈ cs.set i (applyEvent c e ch p).1,
                  climbOk x := by
                intro x hx
                rcases hmemcs2 x hx with rfl | hx2
                · exact ihclimb
                · exact hclimb.2 x hx2
              have hwf2 : ∀ x ∈ cs.set i (applyEvent c e ch p).1, wfT x := by
                intro x hx
                rcases hmemcs2 x hx with rfl | hx2
                · exact hwfr
                · exact hwf.2 x hx2
              have hcsne : cs ≠ [] := by
                intro hx
                subst hx
                cases hget
              have hst : st = NodeState.unknown := by
                by_contra hx
                exact hcsne (hwf.1.mpr hx)
              have hbatcheq : ∀ lab1 lab2 : NodeLabel,
                  batchLabel c e (SNode.mk st inc lab1
                    (cs.set i (applyEvent c e ch p).1)) =
                  batchLabel c e (SNode.mk st inc lab2 cs) := by
                intro lab1 lab2
                subst hst
                rw [batchLabel_unknown, batchLabel_unknown,
                  map_congr_of_strip (batchLabel c e) _ cs
                    (fun a ha b hb => batchLabel_congr c e a (hwf2 a ha) b hb)
                    hstrip2]
              have hgetr : (cs.set i (applyEvent c e ch p).1).get? i =
                  some (applyEvent c e ch p).1 :=
                list_get_set_self cs i (applyEvent c e ch p).1 hilt
              have hcssym : cs = (cs.set i (applyEvent c e ch p).1).set i ch := by
                rw [list_set_set, list_set_self cs i ch hget]
              rw [applyEvent_cons_some c e st inc lab cs i p ch hget]
              by_cases hbr : (applyEvent c e ch p).2 = true ∧
                  lab = NodeLabel.unlabeled
              · rw [if_pos hbr]
                by_cases hd : detDecide c e
                    (cs.set i (applyEvent c e ch p).1) = NodeLabel.unlabeled
                · rw [if_pos hd]
                  refine ⟨?_, ?_, ?_, ?_, ?_, ?_, ?_⟩
                  · rw [stripLabels_eq, stripLabels_eq, hstrip2]
                  · rw [soundT_eq]
                    refine ⟨?_, hsound2⟩
                    rcases hsound.1 with h1 | h1
                    · exact Or.inl h1
                    · exact Or.inr (by rw [hbatcheq lab lab]; exact h1)
                  · rw [climbOk_eq]
                    refine ⟨?_, hclimb2⟩
                    intro _ hall
                    exfalso
                    have hdef : ∀ x ∈ cs.set i (applyEvent c e ch p).1,
                        x.label = NodeLabel.top ∨
                          x.label = NodeLabel.bottom := by
                      intro x hx
                      rcases hsoundroots x hx with hxu | hxb
                      · exact absurd hxu (hall x hx)
                      · rw [hxb]
                        exact batchLabel_label_definite c e x
                    have hdetall := detDecide_all_labeled c e
                      (cs.set i (applyEvent c e ch p).1) hdef
                    rw [hd] at hdetall
                    rcases labelDecision_definite c e
                        (cs.set i (applyEvent c e ch p).1) with hx | hx
                    · rw [hx] at hdetall
                      cases hdetall
                    · rw [hx] at hdetall
                      cases hdetall
                  · intro htrue
                    simp at htrue
                  · intro _
                    rfl
                  · intro q hq
                    cases q with
                    | nil => exact hq
                    | cons j q2 =>
                        intro x hx
                        by_cases hij : i = j
                        · subst hij
                          rw [hgetr] at hx
                          cases hx
                          exact ihmono q2 (hq ch hget)
                        · rw [list_get_set_ne cs i j _ hij] at hx
                          exact hq x hx
                  · intro hmem
                    obtain ⟨ch2, hch2, hp2⟩ :=
                      mem_leafPaths_cons_path st inc lab cs i p hmem
                    rw [hget] at hch2
                    cases hch2
                    intro x hx
                    rw [hgetr] at hx
                    cases hx
                    exact ihleaf hp2
                · rw [if_neg hd]
                  refine ⟨?_, ?_, ?_, ?_, ?_, ?_, ?_⟩
                  · rw [stripLabels_eq, stripLabels_eq, hstrip2]
                  · rw [soundT_eq]
                    refine ⟨Or.inr ?_, hsound2⟩
                    have hbatch := detDecide_batch c e
                      (cs.set i (applyEvent c e ch p).1) _ hsoundroots rfl hd
                    subst hst
                    rw [batchLabel_unknown]
                    exact hbatch.symm
                  · rw [climbOk_eq]
                    exact ⟨fun _ _ => hd, hclimb2⟩
                  · intro _
                    exact ⟨hbr.2, hd⟩
                  · intro hfalse
                    simp at hfalse
                  · intro q hq
                    cases q with
                    | nil => exact hd
                    | cons j q2 =>
                        intro x hx
                        by_cases hij : i = j
                        · subst hij
                          rw [hgetr] at hx
                          cases hx
                          exact ihmono q2 (hq ch hget)
                        · rw [list_get_set_ne cs i j _ hij] at hx
                          exact hq x hx
                  · intro hmem
                    obtain ⟨ch2, hch2, hp2⟩ :=
                      mem_leafPaths_cons_path st inc lab cs i p hmem
                    rw [hget] at hch2
                    cases hch2
                    intro x hx
                    rw [hgetr] at hx
                    cases hx
                    exact ihleaf hp2
              · rw [if_neg hbr]
                refine ⟨?_, ?_, ?_, ?_, ?_, ?_, ?_⟩
                · rw [stripLabels_eq, stripLabels_eq, hstrip2]
                · rw [soundT_eq]
                  refine ⟨?_, hsound2⟩
                  rcases hsound.1 with h1 | h1
                  · exact Or.inl h1
                  · exact Or.inr (by rw [hbatcheq lab lab]; exact h1)
                · rw [climbOk_eq]
                  refine ⟨?_, hclimb2⟩
                  by_cases hlab : lab = NodeLabel.unlabeled
                  · intro _ hall
                    have hrf : (applyEvent c e ch p).2 = false := by
                      rcases Bool.eq_false_or_eq_true (applyEvent c e ch p).2
                        with hx | hx
                      · exact absurd ⟨hx, hlab⟩ hbr
                      · exact hx
                    have hlabr := ihfalse hrf
                    have hallcs : ∀ x ∈ cs, x.label ≠ NodeLabel.unlabeled := by
                      intro x hx
                      rw [hcssym] at hx
                      rcases list_mem_set _ i ch x hx with hxch | hx2
                      · rw [hxch, ← hlabr]
                        exact hall (applyEvent c e ch p).1
                          (list_get_mem _ i _ hgetr)
                      · exact hall x hx2
                    exact hclimb.1 hcsne hallcs
                  · intro _ _
                    exact hlab
                · intro htrue
                  simp at htrue
                · intro _
                  rfl
                · intro q hq
                  cases q with
                  | nil => exact hq
                  | cons j q2 =>
                      intro x hx
                      by_cases hij : i = j
                      · subst hij
                        rw [hgetr] at hx
                        cases hx
                        exact ihmono q2 (hq ch hget)
                      · rw [list_get_set_ne cs i j _ hij] at hx
                        exact hq x hx
                · intro hmem
                  obtain ⟨ch2, hch2, hp2⟩ :=
                    mem_leafPaths_cons_path st inc lab cs i p hmem
                  rw [hget] at hch2
                  cases hch2
                  intro x hx
                  rw [hgetr] at hx
                  cases hx
                  exact ihleaf hp2

end Mtlsyn

namespace Mtlsyn

theorem list_mem_get {α : Type} :
    ∀ (l : List α) (a : α), a ∈ l → ∃ i, l.get? i = some a := by
  intro l
  induction l with
  | nil => intro a h; cases h
  | cons x xs ih =>
      intro a h
      rcases List.mem_cons.mp h with rfl | h2
      · exact ⟨0, rfl⟩
      · obtain ⟨i, hi⟩ := ih a h2
        exact ⟨i + 1, hi⟩

/-- The root clause of `allUnlabeled`. -/
theorem allUnlabeled_root (t : SNode) (h : allUnlabeled t) :
    t.label = NodeLabel.unlabeled := by
  cases t with
  | mk st inc lab cs =>
      rw [allUnlabeled_eq] at h
      exact h.1

/-- The root clause of `allLabeled`. -/
theorem allLabeled_root (t : SNode) (h : allLabeled t) :
    t.label ≠ NodeLabel.unlabeled := by
  cases t with
  | mk st inc lab cs =>
      rw [allLabeled_eq] at h
      exact h.1

/-- Before labeling starts every node is trivially sound. -/
theorem soundT_of_allUnlabeled (c e : Finset String) :
    ∀ t, allUnlabeled t → soundT c e t := by
  intro t
  induction t using SNode.inductionOn with
  | h st inc lab cs ih =>
      intro h
      rw [allUnlabeled_eq] at h
      rw [soundT_eq]
      exact ⟨Or.inl h.1, fun ch hch => ih ch hch (h.2 ch hch)⟩

/-- Before labeling starts the climbing invariant holds vacuously. -/
theorem climbOk_of_allUnlabeled :
    ∀ t, allUnlabeled t → climbOk t := by
  intro t
  induction t using SNode.inductionOn with
  | h st inc lab cs ih =>
      intro h
      rw [allUnlabeled_eq] at h
      rw [climbOk_eq]
      refine ⟨?_, fun ch hch => ih ch hch (h.2 ch hch)⟩
      intro hne hall
      exfalso
      obtain ⟨ch, hch⟩ := List.exists_mem_of_ne_nil cs hne
      exact hall ch hch (allUnlabeled_root ch (h.2 ch hch))

/-- Running any event list preserves the invariants and labels every
resolved leaf. -/
theorem runEvents_invariants (c e : Finset String) :
    ∀ (ps : List (List ℕ)) (t : SNode), wfT t → soundT c e t → climbOk t →
      stripLabels (runEvents c e t ps) = stripLabels t ∧
      soundT c e (runEvents c e t ps) ∧
      climbOk (runEvents c e t ps) ∧
      (∀ q, labeledAt t q → labeledAt (runEvents c e t ps) q) ∧
      (∀ p ∈ ps, p ∈ leafPaths t → labeledAt (runEvents c e t ps) p) := by
  intro ps
  induction ps with
  | nil =>
      intro t hwf hs hc
      refine ⟨rfl, hs, hc, fun q hq => hq, ?_⟩
      intro p hp
      cases hp
  | cons p rest ih =>
      intro t hwf hs hc
      obtain ⟨e1strip, e1sound, e1climb, -, -, e1mono, e1leaf⟩ :=
        applyEvent_preserves c e p t hwf hs hc
      have hwf1 : wfT (applyEvent c e t p).1 :=
        (wfT_congr (applyEvent c e t p).1 t e1strip).mpr hwf
      obtain ⟨rstrip, rsound, rclimb, rmono, rleaf⟩ :=
        ih (applyEvent c e t p).1 hwf1 e1sound e1climb
      have hrun : runEvents c e t (p :: rest) =
          runEvents c e (applyEvent c e t p).1 rest := rfl
      rw [hrun]
      refine ⟨rstrip.trans e1strip, rsound, rclimb, ?_, ?_⟩
      · intro q hq
        exact rmono q (e1mono q hq)
      · intro p2 hp2 hleaf2
        rcases List.mem_cons.mp hp2 with rfl | hmem
        · exact rmono p2 (e1leaf hleaf2)
        · refine rleaf p2 hmem ?_
          rw [leafPaths_congr (applyEvent c e t p).1 t e1strip]
          exact hleaf2

/-- A tree whose leaves are all labeled and which satisfies the climbing
invariant is labeled everywhere. -/
theorem allLabeled_of_leaves :
    ∀ t, climbOk t → (∀ p ∈ leafPaths t, labeledAt t p) → allLabeled t := by
  intro t
  induction t using SNode.inductionOn with
  | h st inc lab cs ih =>
      intro hclimb hleaves
      rw [climbOk_eq] at hclimb
      rw [allLabeled_eq]
      cases cs with
      | nil =>
          refine ⟨?_, by intro ch hch; cases hch⟩
          have := hleaves [] (by rw [leafPaths_nil]; exact List.mem_singleton_self _)
          exact this
      | cons x rest =>
          have hchildren : ∀ ch ∈ x :: rest, allLabeled ch := by
            intro ch hch
            obtain ⟨j, hj⟩ := list_mem_get (x :: rest) ch hch
            refine ih ch hch (hclimb.2 ch hch) ?_
            intro p2 hp2
            have hmem := mem_leafPaths_intro st inc lab (x :: rest) j ch p2
              hj hp2
            exact hleaves (j :: p2) hmem ch hj
          refine ⟨?_, hchildren⟩
          exact hclimb.1 (by intro hx; cases hx)
            (fun ch hch => allLabeled_root ch (hchildren ch hch))

/-- A sound, fully labeled tree is its own batch labeling. -/
theorem eq_batch_of_sound_allLabeled (c e : Finset String) :
    ∀ t, soundT c e t → allLabeled t → t = batchLabel c e t := by
  intro t
  induction t using SNode.inductionOn with
  | h st inc lab cs ih =>
      intro hs hall
      rw [soundT_eq] at hs
      rw [allLabeled_eq] at hall
      have hlab : lab = (batchLabel c e (SNode.mk st inc lab cs)).label := by
        rcases hs.1 with h1 | h1
        · exact absurd h1 hall.1
        · exact h1
      have hchEq : ∀ ch ∈ cs, batchLabel c e ch = ch :=
        fun ch h => (ih ch h (hs.2 ch h) (hall.2 ch h)).symm
      cases st with
      | good =>
          have hl : lab = NodeLabel.top := by
            rw [batchLabel] at hlab
            exact hlab
          rw [batchLabel, hl]
      | dead =>
          have hl : lab = NodeLabel.top := by
            rw [batchLabel] at hlab
            exact hlab
          rw [batchLabel, hl]
      | bad =>
          have hl : lab = NodeLabel.bottom := by
            rw [batchLabel] at hlab
            exact hlab
          rw [batchLabel, hl]
      | unknown =>
          have hmapeq : cs.map (batchLabel c e) = cs := by
            have h2 := List.map_congr_left hchEq
            rw [h2]
            simp
          have hlab2 : lab =
              labelDecision c e (cs.map (batchLabel c e)) := by
            rw [batchLabel_unknown] at hlab
            exact hlab
          rw [hmapeq] at hlab2
          rw [batchLabel_unknown, hmapeq, ← hlab2]

/-- C2: for every well-formed unlabeled search tree and every order of leaf
resolutions covering all leaves, the incremental labeling run assigns to
every node, including the root, exactly the label that batch labeling
(`build_tree` followed by `label`) assigns. -/
theorem incremental_labels_eq_batch (c e : Finset String) (t : SNode)
    (ps : List (List ℕ)) (hwf : wfT t) (hinit : allUnlabeled t)
    (hcover : ∀ p ∈ leafPaths t, p ∈ ps) :
    runEvents c e t ps = batchLabel c e t := by
  obtain ⟨rstrip, rsound, rclimb, rmono, rleaf⟩ :=
    runEvents_invariants c e ps t hwf (soundT_of_allUnlabeled c e t hinit)
      (climbOk_of_allUnlabeled t hinit)
  have hleaves : ∀ p ∈ leafPaths (runEvents c e t ps),
      labeledAt (runEvents c e t ps) p := by
    intro p hp
    have hp0 : p ∈ leafPaths t := by
      rw [← leafPaths_congr (runEvents c e t ps) t rstrip]
      exact hp
    exact rleaf p (hcover p hp0) hp0
  have hall := allLabeled_of_leaves (runEvents c e t ps) rclimb hleaves
  have heq := eq_batch_of_sound_allLabeled c e (runEvents c e t ps)
    rsound hall
  rw [heq]
  exact batchLabel_congr c e (runEvents c e t ps)
    ((wfT_congr (runEvents c e t ps) t rstrip).mpr hwf) t rstrip

end Mtlsyn

namespace Mtlsyn

/-- Witness tree: the three-child root from the incremental-labeling unit
test (one TOP-bound controller child, two BOTTOM-bound environment
children). -/
def wLeafGood : SNode := SNode.mk NodeState.good [(0, "a")] NodeLabel.unlabeled []

/-- Second witness leaf: a bad node reached by an environment action. -/
def wLeafBad1 : SNode := SNode.mk NodeState.bad [(1, "x")] NodeLabel.unlabeled []

/-- Third witness leaf: a later bad node reached by an environment action. -/
def wLeafBad2 : SNode := SNode.mk NodeState.bad [(2, "x")] NodeLabel.unlabeled []

/-- The witness root. -/
def wRoot : SNode :=
  SNode.mk NodeState.unknown [] NodeLabel.unlabeled
    [wLeafGood, wLeafBad1, wLeafBad2]

/-- Witness for the batch/incremental agreement at a concrete tree and a
concrete out-of-order event list. -/
theorem incremental_labels_eq_batch_witness :
    wfT wRoot ∧ allUnlabeled wRoot ∧
    (∀ p ∈ leafPaths wRoot, p ∈ [[1], [0], [2]]) ∧
    runEvents {"a", "b", "c"} {"x", "y", "z"} wRoot [[1], [0], [2]] =
      batchLabel {"a", "b", "c"} {"x", "y", "z"} wRoot := by
  have hwf : wfT wRoot := by
    rw [wRoot, wfT_eq]
    refine ⟨by simp, ?_⟩
    intro ch hch
    rcases List.mem_cons.mp hch with rfl | hch
    · rw [wLeafGood, wfT_eq]
      refine ⟨by simp, by intro x hx; cases hx⟩
    rcases List.mem_cons.mp hch with rfl | hch
    · rw [wLeafBad1, wfT_eq]
      refine ⟨by simp, by intro x hx; cases hx⟩
    rcases List.mem_cons.mp hch with rfl | hch
    · rw [wLeafBad2, wfT_eq]
      refine ⟨by simp, by intro x hx; cases hx⟩
    cases hch
  have hunlab : allUnlabeled wRoot := by
    rw [wRoot, allUnlabeled_eq]
    refine ⟨rfl, ?_⟩
    intro ch hch
    rcases List.mem_cons.mp hch with rfl | hch
    · rw [wLeafGood, allUnlabeled_eq]
      exact ⟨rfl, by intro x hx; cases hx⟩
    rcases List.mem_cons.mp hch with rfl | hch
    · rw [wLeafBad1, allUnlabeled_eq]
      exact ⟨rfl, by intro x hx; cases hx⟩
    rcases List.mem_cons.mp hch with rfl | hch
    · rw [wLeafBad2, allUnlabeled_eq]
      exact ⟨rfl, by intro x hx; cases hx⟩
    cases hch
  have hpaths : leafPaths wRoot = [[0], [1], [2]] := by
    rw [wRoot, leafPaths_cons, leafPathsAux_cons, leafPathsAux_cons,
      leafPathsAux_cons, leafPathsAux_nil, wLeafGood, wLeafBad1, wLeafBad2,
      leafPaths_nil, leafPaths_nil, leafPaths_nil]
    rfl
  have hcover : ∀ p ∈ leafPaths wRoot, p ∈ [[1], [0], [2]] := by
    rw [hpaths]
    intro p hp
    rcases List.mem_cons.mp hp with rfl | hp
    · simp
    rcases List.mem_cons.mp hp with rfl | hp
    · simp
    rcases List.mem_cons.mp hp with rfl | hp
    · simp
    cases hp
  exact ⟨hwf, hunlab, hcover,
    incremental_labels_eq_batch {"a", "b", "c"} {"x", "y", "z"} wRoot
      [[1], [0], [2]] hwf hunlab hcover⟩

end Mtlsyn

namespace Mtlsyn

/-- Witness for the batch labeling rule: a GOOD leaf is labeled TOP. -/
theorem batchLabel_rule_witness :
    (batchLabel {"a"} {"x"}
      (SNode.mk NodeState.good [] NodeLabel.unlabeled [])).label =
      NodeLabel.top :=
  (batchLabel_rule {"a"} {"x"} NodeState.good [] NodeLabel.unlabeled []).1
    (Or.inl rfl)

/-- Witness for controller extraction: on a concrete TOP root the walk
succeeds and produces exactly the TOP descendants' words as accepting
locations. -/
theorem createController_spec_witness :
    ∃ ctrl, createController (fun _ _ => []) cexControllerRoot =
      Except.ok ctrl ∧
      ctrl.finalLocations = topWordsBelow cexControllerRoot :=
  (createController_spec (fun _ _ => []) cexControllerRoot).1 rfl

end Mtlsyn
